import Mathlib

/-!
Verification of the external merge-sort implementation in `src/sortFile.ts`
(class `SortFile`).

Modelling conventions (shallow embedding):

* A file on disk is a list of bytes (`List Nat`, each `< 256`).
* A JavaScript string is a list of UTF-16 code units; all strings handled by
  the program are produced by `buffer.toString("ascii")`, which masks every
  byte with `0x7f` (`b % 128`), so records are modelled as `List Nat` of
  char codes (`Record`).  JavaScript string comparison `<` is lexicographic
  on code units (`jsLtB`).
* `Buffer.alloc(n)` is zero filled; `fileHandle.read(buffer, 0, len, pos)`
  copies `min len (size - pos)` bytes into the front of the buffer and leaves
  the remaining buffer bytes untouched (stale).  This stale-buffer behaviour
  is modelled faithfully because the validator and the segment reader rely
  on it.
* `String.prototype.trim` removes the JavaScript whitespace characters; in
  the post-mask range the relevant ones are 9 (TAB), 10 (LF), 11 (VT),
  12 (FF), 13 (CR) and 32 (SPACE).  NUL (0) and DEL (127) are not trimmed.
* The file system is a map from path to optional byte content plus an open
  handle count per path; `fsp.access` succeeds exactly on mapped paths
  (directories are modelled as mapped entries).
* The unguarded `while` loops of the source are modelled with an explicit
  fuel argument chosen (and proved) large enough; running out of fuel is a
  distinguished error that the top-level wrappers never produce.
-/

/-- A record / JavaScript string: a list of UTF-16 code units. -/
abbrev Record := List Nat

/-- EOL as written by the program: CR LF (`"\r\n"`), two bytes. -/
def eolBytes : List Nat := [13, 10]

/-- MAX_ASCII_CHAR = String.fromCharCode(127): the one-character sentinel
string used by `findMinLine`. -/
def maxAsciiChar : Record := [127]

/-- Decoding a byte buffer with `toString("ascii")`: every byte is masked
with 0x7f. -/
def decodeAscii (bs : List Nat) : Record := bs.map (fun b => b % 128)

/-- Encoding a string with the `"ascii"` write encoding (equivalent to
`"latin1"` when encoding a string into a `Buffer`): every UTF-16 code unit
is truncated to its low byte. -/
def encodeRecord (r : Record) : List Nat := r.map (fun c => c % 256)

/-- One step of WHATWG UTF-8 decoding as performed by Node's
`buffer.toString("utf8")`, fuelled by the number of remaining bytes.  Bytes
below 0x80 decode to themselves; a well-formed multi-byte sequence decodes
to its code point, a code point above 0xFFFF becoming a UTF-16 surrogate
pair; a byte that cannot start or extend a sequence contributes the
replacement character U+FFFD, decoding resuming at the offending byte
(0xC2-0xDF lead a 2-byte sequence; 0xE0-0xEF lead a 3-byte sequence whose
first continuation is restricted to 0xA0-0xBF after 0xE0 and to 0x80-0x9F
after 0xED; 0xF0-0xF4 lead a 4-byte sequence whose first continuation is
restricted to 0x90-0xBF after 0xF0 and to 0x80-0x8F after 0xF4; every other
continuation byte ranges over 0x80-0xBF). -/
def utf8DecodeGo : Nat → List Nat → List Nat
  | 0, _ => []
  | _ + 1, [] => []
  | fuel + 1, b :: rest =>
    if b < 128 then b :: utf8DecodeGo fuel rest
    else if 194 ≤ b ∧ b ≤ 223 then
      match rest with
      | [] => [65533]
      | c1 :: rest1 =>
        if 128 ≤ c1 ∧ c1 ≤ 191 then
          ((b - 192) * 64 + (c1 - 128)) :: utf8DecodeGo fuel rest1
        else 65533 :: utf8DecodeGo fuel (c1 :: rest1)
    else if 224 ≤ b ∧ b ≤ 239 then
      match rest with
      | [] => [65533]
      | c1 :: rest1 =>
        if (if b = 224 then 160 else 128) ≤ c1 ∧ c1 ≤ (if b = 237 then 159 else 191) then
          match rest1 with
          | [] => [65533]
          | c2 :: rest2 =>
            if 128 ≤ c2 ∧ c2 ≤ 191 then
              ((b - 224) * 4096 + (c1 - 128) * 64 + (c2 - 128)) :: utf8DecodeGo fuel rest2
            else 65533 :: utf8DecodeGo fuel (c2 :: rest2)
        else 65533 :: utf8DecodeGo fuel (c1 :: rest1)
    else if 240 ≤ b ∧ b ≤ 244 then
      match rest with
      | [] => [65533]
      | c1 :: rest1 =>
        if (if b = 240 then 144 else 128) ≤ c1 ∧ c1 ≤ (if b = 244 then 143 else 191) then
          match rest1 with
          | [] => [65533]
          | c2 :: rest2 =>
            if 128 ≤ c2 ∧ c2 ≤ 191 then
              match rest2 with
              | [] => [65533]
              | c3 :: rest3 =>
                if 128 ≤ c3 ∧ c3 ≤ 191 then
                  (((b - 240) * 262144 + (c1 - 128) * 4096 + (c2 - 128) * 64 + (c3 - 128)
                      - 65536) / 1024 + 55296) ::
                    (((b - 240) * 262144 + (c1 - 128) * 4096 + (c2 - 128) * 64 + (c3 - 128)
                        - 65536) % 1024 + 56320) ::
                    utf8DecodeGo fuel rest3
                else 65533 :: utf8DecodeGo fuel (c3 :: rest3)
            else 65533 :: utf8DecodeGo fuel (c2 :: rest2)
        else 65533 :: utf8DecodeGo fuel (c1 :: rest1)
    else 65533 :: utf8DecodeGo fuel rest

/-- Decoding a byte buffer with `toString("utf8")`: WHATWG UTF-8 decoding of
the byte list into a list of UTF-16 code units. -/
def utf8Decode (bs : List Nat) : Record := utf8DecodeGo bs.length bs

/-- JavaScript whitespace test restricted to the post-mask code-unit range:
TAB, LF, VT, FF, CR and SPACE.  NUL and DEL are not whitespace. -/
def isJsWs (c : Nat) : Bool := c = 9 || c = 10 || c = 11 || c = 12 || c = 13 || c = 32

/-- Model of `String.prototype.trim`: drop whitespace from both ends. -/
def jsTrim (r : Record) : Record :=
  ((r.dropWhile isJsWs).reverse.dropWhile isJsWs).reverse

/-- JavaScript string comparison `a < b`: lexicographic on code units. -/
def jsLtB : Record → Record → Bool
  | [], [] => false
  | [], _ :: _ => true
  | _ :: _, [] => false
  | a :: as, b :: bs => if a < b then true else if b < a then false else jsLtB as bs

/-- Model of `String.prototype.padEnd n` with the default space pad. -/
def jsPadEnd (n : Nat) (r : Record) : Record := r ++ List.replicate (n - r.length) 32

/-! ### Model of `Array.prototype.sort` (`lines.sort()` in `writeSortedSegment`)

`lines.sort()` sorts ascending by JavaScript string comparison.  Because that
comparison is a total order on strings, the sorted result is unique, so any
correct sorting algorithm is an exact model; we use insertion sort so that
concrete inputs evaluate by `rfl`. -/

/-- Insert a record into a list, before the first element not below it. -/
def insertRecord (r : Record) : List Record → List Record
  | [] => [r]
  | x :: xs => if jsLtB x r then x :: insertRecord r xs else r :: x :: xs

/-- Model of `lines.sort()`: ascending by `jsLtB`. -/
def sortRecords (l : List Record) : List Record := l.foldr insertRecord []

/-! ### `findMinLine` -/

/-- Model of `Array.prototype.indexOf`: index of the first occurrence, `-1`
when absent. -/
def jsIndexOfAux (x : Record) : List Record → Option Nat
  | [] => none
  | y :: ys => if y = x then some 0 else (jsIndexOfAux x ys).map (· + 1)

/-- JavaScript `lines.indexOf(x)` as an integer, `-1` when `x` is absent. -/
def jsIndexOf (l : List Record) (x : Record) : Int :=
  match jsIndexOfAux x l with
  | some i => (i : Int)
  | none => -1

/-- The reducer of `findMinLine`:
`(min, current) => (current !== "" && current < min ? current : min)`. -/
def minLineStep (m c : Record) : Record := if c ≠ [] ∧ jsLtB c m = true then c else m

/-- Model of `findMinLine`: the fold with initial value `MAX_ASCII_CHAR`
followed by `indexOf`, returning the pair of the minimum line and its index. -/
def findMinLine (lines : List Record) : Record × Int :=
  let minLine := lines.foldl minLineStep maxAsciiChar
  (minLine, jsIndexOf lines minLine)

/-! ### Configuration, errors and the file-system state -/

/-- The immutable configuration of a `SortFile` instance (constructor fields
`maxFileSizeBytes`, `numberOfLinesPerSegment`, `lineSizeBytes`). -/
structure Config where
  maxFileSizeBytes : Nat
  numberOfLinesPerSegment : Nat
  lineSizeBytes : Nat

/-- The distinguishable failures thrown by the program.  `outOfFuel` is an
artifact of the fuel-based loop modelling; the wrappers supply enough fuel
for it never to be produced. -/
inductive SortError where
  | inputNotFound
  | fileTooLarge
  | malformedRecordWidth
  | recordCountNotDivisible
  | outputDirectoryMissing
  | invalidMergeIndex
  | outOfFuel
deriving DecidableEq, Repr

/-- A file-system state: byte contents per path (directories are modelled as
mapped entries, since `fsp.access` succeeds on them) and the number of open
handles per path. -/
structure FS where
  files : String → Option (List Nat)
  handles : String → Nat

/-! ### Validator (`validateInput` and helpers) -/

/-- Model of `checkFileExists`: `fsp.access` succeeds exactly on mapped
paths. -/
def checkFileExists (fs : FS) (filename : String) : Except SortError Unit :=
  match fs.files filename with
  | none => .error .inputNotFound
  | some _ => .ok ()

/-- Model of `checkFileSizeLimit`: compare `stats.size` with
`maxFileSizeBytes`. -/
def checkFileSizeLimit (cfg : Config) (fs : FS) (filename : String) : Except SortError Unit :=
  if ((fs.files filename).getD []).length > cfg.maxFileSizeBytes then .error .fileTooLarge
  else .ok ()

/-- One loop step of `checkLineLengthAndCount`.  `remaining` is the unread
suffix of the file, `buffer` the reused read buffer (length `lineSizeBytes`,
stale bytes kept), `lineCount` the running count.  On end of file the
divisibility check runs; in JavaScript `lineCount % 0` is `NaN`, which is
`!== 0`, so `numberOfLinesPerSegment = 0` always fails that check. -/
def checkAux (W n : Nat) : Nat → List Nat → List Nat → Nat → Except SortError Unit
  | 0, _, _, _ => .error .outOfFuel
  | fuel + 1, remaining, buffer, lineCount =>
    match remaining.take W with
    | [] =>
      if n ≠ 0 ∧ lineCount % n = 0 then .ok () else .error .recordCountNotDivisible
    | c :: cs =>
      let chunk := c :: cs
      let buffer' := chunk ++ buffer.drop chunk.length
      let line := jsTrim (decodeAscii buffer')
      if line.length + 2 ≠ W then .error .malformedRecordWidth
      else checkAux W n fuel (remaining.drop chunk.length) buffer' (lineCount + 1)

/-- Model of `checkLineLengthAndCount` (inside `validateFileContents`): reads
`lineSizeBytes`-sized chunks into a reused zero-initialised buffer, checks
`line.trim().length + EOL.length === lineSizeBytes` per chunk and finally the
divisibility of the line count. -/
def checkLineLengthAndCount (cfg : Config) (file : List Nat) : Except SortError Unit :=
  checkAux cfg.lineSizeBytes cfg.numberOfLinesPerSegment (file.length + 1) file
    (List.replicate cfg.lineSizeBytes 0) 0

/-- Model of `checkOutputDirectory`: despite its name it calls
`fsp.access(outFilename)` on the full output path. -/
def checkOutputDirectory (fs : FS) (outFilename : String) : Except SortError Unit :=
  match fs.files outFilename with
  | none => .error .outputDirectoryMissing
  | some _ => .ok ()

/-- Model of `validateInput`: the four checks in source order. -/
def validateInput (cfg : Config) (fs : FS) (inFilename outFilename : String) :
    Except SortError Unit :=
  match checkFileExists fs inFilename with
  | .error e => .error e
  | .ok _ =>
    match checkFileSizeLimit cfg fs inFilename with
    | .error e => .error e
    | .ok _ =>
      match checkLineLengthAndCount cfg ((fs.files inFilename).getD []) with
      | .error e => .error e
      | .ok _ => checkOutputDirectory fs outFilename

/-- Parent directory of a path: everything before the final slash.  Used
only to state what the specification claims `checkOutputDirectory` checks
(it does not appear in the implementation model). -/
def parentDir (s : String) : String :=
  ⟨((s.data.reverse.dropWhile (fun c => c ≠ '/')).drop 1).reverse⟩

/-! ### Run generation (`sortSegments`, `readSegment`, `writeSortedSegment`) -/

/-- Model of JavaScript `inFilename.slice(0, -4)`: drop the last four UTF-16
code units (clamped at zero). -/
def sliceDropLast4 (s : String) : String := ⟨s.data.take (s.data.length - 4)⟩

/-- The temporary run file path built in `writeSortedSegment`:
`fileNameNoEnd + TEMP_FILE_PREFIX + segmentCounter + TEMP_FILE_EXTENSION`
where `fileNameNoEnd = inFilename.slice(0, -4)`. -/
def tempFilePath (inFilename : String) (segmentCounter : Nat) : String :=
  sliceDropLast4 inFilename ++ "-temp-" ++ toString segmentCounter ++ ".txt"

/-- The body of `readSegment`'s `for` loop: read up to `count` more
fixed-width chunks starting at `pos`, reusing `buffer` (so a short final
read leaves stale bytes from the previous chunk in place), decode the whole
buffer with `toString("utf8")`, trim and collect.  The loop stops early on a
zero-byte read. -/
def readSegAux (W : Nat) (file : List Nat) : Nat → Nat → List Nat → List Record
  | 0, _, _ => []
  | count + 1, pos, buffer =>
    match (file.drop pos).take W with
    | [] => []
    | c :: cs =>
      let chunk := c :: cs
      let buffer' := chunk ++ buffer.drop chunk.length
      jsTrim (utf8Decode buffer') :: readSegAux W file count (pos + W) buffer'

/-- Model of `readSegment`: up to `numberOfLinesPerSegment` fixed-width reads
at offsets `startPosition + i * lineSizeBytes` into a fresh zero-filled
buffer, each decoded with `toString("utf8")` and trimmed. -/
def readSegment (cfg : Config) (file : List Nat) (startPosition : Nat) : List Record :=
  readSegAux cfg.lineSizeBytes file cfg.numberOfLinesPerSegment startPosition
    (List.replicate cfg.lineSizeBytes 0)

/-- The run-file bytes written by `writeSortedSegment`:
`lines.join(EOL) + EOL` with the `"ascii"` write encoding. -/
def encodeRun : List Record → List Nat
  | [] => eolBytes
  | [r] => encodeRecord r ++ eolBytes
  | r :: rs => encodeRecord r ++ eolBytes ++ encodeRun rs

/-- The loop of `sortSegments`, fuelled: read a segment, stop when it is
empty, otherwise sort it, record the temp file path and content, advance
`bytesRead` by `lines.length * lineSizeBytes` and increment the counter. -/
def sortSegAux (cfg : Config) (inFilename : String) (file : List Nat) :
    Nat → Nat → Nat → List (String × List Nat)
  | 0, _, _ => []
  | fuel + 1, bytesRead, segmentCounter =>
    let lines := readSegment cfg file bytesRead
    match lines with
    | [] => []
    | _ :: _ =>
      (tempFilePath inFilename segmentCounter, encodeRun (sortRecords lines)) ::
        sortSegAux cfg inFilename file fuel (bytesRead + lines.length * cfg.lineSizeBytes)
          (segmentCounter + 1)

/-- Model of `sortSegments`: returns the list of created temporary run files
as path–content pairs (the source returns the paths; the contents are what
`writeSortedSegment` wrote to them). -/
def sortSegments (cfg : Config) (inFilename : String) (file : List Nat) :
    List (String × List Nat) :=
  sortSegAux cfg inFilename file (file.length + 1) 0 0

/-! ### Run merging (`mergeSegments`, `performMerge` and helpers) -/

/-- A merge cursor: one open run file together with its read position
(`positions[i]`) and buffered line (`lines[i]`, `[]` marks exhausted). -/
structure MergeCursor where
  run : List Nat
  pos : Nat
  line : Record
deriving Repr

/-- Model of `readInitialLines` for one run: read the first `lineSizeBytes`
bytes into a fresh zero-filled buffer and trim.  The result of a zero-byte
read is not checked here (the source ignores `bytesRead`), so an empty run
file yields the trimmed all-zero buffer, not the exhausted marker. -/
def initCursor (W : Nat) (run : List Nat) : MergeCursor :=
  let chunk := run.take W
  { run := run, pos := W,
    line := jsTrim (decodeAscii (chunk ++ List.replicate (W - chunk.length) 0)) }

/-- Model of `readNextLine` on cursor `c`: read `lineSizeBytes` bytes at
`positions[index]` into a fresh zero-filled buffer, advance the position,
and either mark the line exhausted (zero-byte read) or store the trimmed
decoded buffer. -/
def readNextLine (W : Nat) (c : MergeCursor) : MergeCursor :=
  let chunk := (c.run.drop c.pos).take W
  match chunk with
  | [] => { run := c.run, pos := c.pos + W, line := [] }
  | d :: ds =>
    let chunk' := d :: ds
    { run := c.run, pos := c.pos + W,
      line := jsTrim (decodeAscii (chunk' ++ List.replicate (W - chunk'.length) 0)) }

/-- Bytes appended to the output file by `writeLineToOutput`:
`line.padEnd(lineSizeBytes - EOL.length) + EOL`. -/
def writeLineBytes (W : Nat) (line : Record) : List Nat :=
  encodeRecord (jsPadEnd (W - 2) line) ++ eolBytes

/-- The `while` loop of `performMerge`, fuelled.  Each iteration selects the
minimum line with `findMinLine`, writes it to the output, and advances the
selected cursor.  A negative or out-of-range `minIndex` models the JavaScript
`TypeError` thrown by `fileHandles[minIndex].read` (note the write of the
sentinel line has already happened at that point).  Returns the sequence of
records written. -/
def mergeLoop (W : Nat) : Nat → List MergeCursor → List Record →
    List Record × Except SortError Unit
  | 0, _, out => (out, .error .outOfFuel)
  | fuel + 1, cs, out =>
    if (cs.map (fun c => c.line)).all (fun l => l.isEmpty) then (out, .ok ())
    else
      let fm := findMinLine (cs.map (fun c => c.line))
      let out' := out ++ [fm.1]
      match fm.2 with
      | Int.negSucc _ => (out', .error .invalidMergeIndex)
      | Int.ofNat i =>
        if h : i < cs.length then
          mergeLoop W fuel (cs.set i (readNextLine W (cs.get ⟨i, h⟩))) out'
        else (out', .error .invalidMergeIndex)

/-- Fuel that provably dominates the merge-loop measure. -/
def mergeFuel (runs : List (List Nat)) : Nat :=
  (runs.map (fun r => r.length + 1)).sum + 1

/-- Model of `performMerge`: initialise one cursor per run with
`readInitialLines` and all positions at `lineSizeBytes`, then run the merge
loop.  Returns the written records and the outcome. -/
def performMerge (W : Nat) (runs : List (List Nat)) :
    List Record × Except SortError Unit :=
  mergeLoop W (mergeFuel runs) (runs.map (initCursor W)) []

/-- Output-file bytes corresponding to a sequence of written records. -/
def encodeOut (W : Nat) (written : List Record) : List Nat :=
  written.foldr (fun r acc => writeLineBytes W r ++ acc) []

/-- Increment the open-handle count of a path. -/
def bumpHandle (h : String → Nat) (p : String) : String → Nat :=
  fun q => if q = p then h q + 1 else h q

/-- Decrement the open-handle count of a path (a `close`). -/
def dropHandle (h : String → Nat) (p : String) : String → Nat :=
  fun q => if q = p then h q - 1 else h q

/-- Model of `mergeSegments`: open every run file and the output file (the
output open truncates), run `performMerge`, and — success or failure alike,
via `try`/`finally` — run `cleanupFiles`: close every run handle, close the
output handle, delete every run file.  The final output content is whatever
the merge wrote before finishing or failing. -/
def mergeSegments (cfg : Config) (segments : List String) (outFilename : String)
    (fs : FS) : FS × Except SortError Unit :=
  let runs := segments.map (fun s => (fs.files s).getD [])
  let opened := bumpHandle (segments.foldl bumpHandle fs.handles) outFilename
  let result := performMerge cfg.lineSizeBytes runs
  let closed := dropHandle (segments.foldl dropHandle opened) outFilename
  let files' := fun p =>
    if p ∈ segments then none
    else if p = outFilename then some (encodeOut cfg.lineSizeBytes result.1)
    else fs.files p
  ({ files := files', handles := closed }, result.2)

/-! ### The `Sort` entry point -/

/-- Model of the `Sort` method: validate, create the sorted runs, write them
to the file system, then merge them into the output file.  A validation
failure propagates with no side effect. -/
def Sort' (cfg : Config) (inFilename outFilename : String) (fs : FS) :
    FS × Except SortError Unit :=
  match validateInput cfg fs inFilename outFilename with
  | .error e => (fs, .error e)
  | .ok _ =>
    let file := (fs.files inFilename).getD []
    let segs := sortSegments cfg inFilename file
    let fsSeg : FS :=
      { files := segs.foldl (fun f seg => fun p => if p = seg.1 then some seg.2 else f p) fs.files,
        handles := fs.handles }
    mergeSegments cfg (segs.map (fun seg => seg.1)) outFilename fsSeg


/-! ### Specification-side definitions used to state properties -/

/-- Fuelled worker for `chunksExact`. -/
def chunksGo {α : Type} (W : Nat) : Nat → List α → List (List α)
  | 0, _ => []
  | _ + 1, [] => []
  | fuel + 1, x :: xs =>
    if W = 0 then [] else (x :: xs).take W :: chunksGo W fuel ((x :: xs).drop W)

/-- The consecutive `W`-sized pieces of a list (the last one possibly
short): used both for the `W`-byte windows of a file and for the
`recordsPerSegment`-sized windows of the record sequence. -/
def chunksExact {α : Type} (W : Nat) (file : List α) : List (List α) :=
  chunksGo W file.length file

/-- The record payloads of a file: each `W`-byte window decoded as ASCII and
trimmed.  For a file whose length is a multiple of `W` this is exactly the
sequence of in-memory records the program works with. -/
def recordsOf (W : Nat) (file : List Nat) : List Record :=
  (chunksExact W file).map (fun w => jsTrim (decodeAscii w))

/-- Decimal value of a most-significant-first digit-character list; used only
to prove that `toString` on `Nat` is injective. -/
def digitsVal : List Char → Nat
  | [] => 0
  | c :: cs => (c.toNat - 48) * 10 ^ cs.length + digitsVal cs

/-- The records the merge phase writes for a given input file, together with
the merge outcome: the runs produced by `sortSegments` fed to
`performMerge`. -/
def mergedOutput (cfg : Config) (inFilename : String) (file : List Nat) :
    List Record × Except SortError Unit :=
  performMerge cfg.lineSizeBytes ((sortSegments cfg inFilename file).map (fun s => s.2))

/-- The property that a record does not start with a whitespace code unit. -/
def headNotWs (l : Record) : Prop := ∀ c t, l = c :: t → isJsWs c = false

/-- A record as validation guarantees it: payload of exactly
`lineSizeBytes - 2` code units, fixed under `trim`, all code units in the
post-mask ASCII range. -/
def cleanRecord (W : Nat) (r : Record) : Prop :=
  r.length = W - 2 ∧ jsTrim r = r ∧ ∀ b ∈ r, b < 128

/-- A run as `writeSortedSegment` produces it for a validated input: a
nonempty list of clean records. -/
def goodRun (W : Nat) (rs : List Record) : Prop :=
  rs ≠ [] ∧ ∀ r ∈ rs, cleanRecord W r ∧ jsLtB r maxAsciiChar = true

/-- The simulation relation between a merge cursor and the list of records
of its run not yet written to the output: the cursor reads the byte image
`encodeRun rs` of its run at position `k * lineSizeBytes`, with the record
`k - 1` buffered (or the exhausted marker once past the end). -/
def MergeInv (W : Nat) (c : MergeCursor) (rem : List Record) : Prop :=
  ∃ rs k, goodRun W rs ∧ c.run = encodeRun rs ∧ 1 ≤ k ∧ c.pos = k * W ∧
    ((k ≤ rs.length ∧ c.line = rs.getD (k - 1) [] ∧ rem = rs.drop (k - 1)) ∨
     (k = rs.length + 1 ∧ c.line = [] ∧ rem = []))

/-! ## Theorems -/

theorem jsLtB_cons_lt {x y : Nat} (h : x < y) (xs ys : List Nat) :
    jsLtB (x :: xs) (y :: ys) = true := by
  simp [jsLtB, h]

theorem jsLtB_cons_gt {x y : Nat} (h : y < x) (xs ys : List Nat) :
    jsLtB (x :: xs) (y :: ys) = false := by
  simp [jsLtB, h, Nat.lt_asymm h]

theorem jsLtB_cons_self (x : Nat) (xs ys : List Nat) :
    jsLtB (x :: xs) (x :: ys) = jsLtB xs ys := by
  simp [jsLtB]

theorem jsLtB_irrefl (a : Record) : jsLtB a a = false := by
  induction a with
  | nil => rfl
  | cons x xs ih => rw [jsLtB_cons_self, ih]

theorem jsLtB_asymm {a b : Record} (h : jsLtB a b = true) : jsLtB b a = false := by
  induction a generalizing b with
  | nil =>
    cases b with
    | nil => simp [jsLtB] at h
    | cons y ys => rfl
  | cons x xs ih =>
    cases b with
    | nil => simp [jsLtB] at h
    | cons y ys =>
      rcases Nat.lt_trichotomy x y with hxy | hxy | hxy
      · exact jsLtB_cons_gt hxy ys xs
      · subst hxy
        rw [jsLtB_cons_self] at h ⊢
        exact ih h
      · rw [jsLtB_cons_gt hxy xs ys] at h
        exact absurd h (by simp)

theorem jsLtB_trans {a b c : Record} (hab : jsLtB a b = true) (hbc : jsLtB b c = true) :
    jsLtB a c = true := by
  induction a generalizing b c with
  | nil =>
    cases b with
    | nil => simp [jsLtB] at hab
    | cons y ys =>
      cases c with
      | nil => simp [jsLtB] at hbc
      | cons z zs => rfl
  | cons x xs ih =>
    cases b with
    | nil => simp [jsLtB] at hab
    | cons y ys =>
      cases c with
      | nil => simp [jsLtB] at hbc
      | cons z zs =>
        rcases Nat.lt_trichotomy x y with hxy | hxy | hxy
        · rcases Nat.lt_trichotomy y z with hyz | hyz | hyz
          · exact jsLtB_cons_lt (Nat.lt_trans hxy hyz) xs zs
          · subst hyz
            exact jsLtB_cons_lt hxy xs zs
          · rw [jsLtB_cons_gt hyz ys zs] at hbc
            exact absurd hbc (by simp)
        · subst hxy
          rw [jsLtB_cons_self] at hab
          rcases Nat.lt_trichotomy x z with hxz | hxz | hxz
          · exact jsLtB_cons_lt hxz xs zs
          · subst hxz
            rw [jsLtB_cons_self] at hbc ⊢
            exact ih hab hbc
          · rw [jsLtB_cons_gt hxz ys zs] at hbc
            exact absurd hbc (by simp)
        · rw [jsLtB_cons_gt hxy xs ys] at hab
          exact absurd hab (by simp)

theorem jsLtB_conn {a b : Record} (hab : jsLtB a b = false) (hba : jsLtB b a = false) :
    a = b := by
  induction a generalizing b with
  | nil =>
    cases b with
    | nil => rfl
    | cons y ys => simp [jsLtB] at hab
  | cons x xs ih =>
    cases b with
    | nil => simp [jsLtB] at hba
    | cons y ys =>
      rcases Nat.lt_trichotomy x y with hxy | hxy | hxy
      · rw [jsLtB_cons_lt hxy xs ys] at hab
        exact absurd hab (by simp)
      · subst hxy
        rw [jsLtB_cons_self] at hab hba
        exact congrArg (x :: ·) (ih hab hba)
      · rw [jsLtB_cons_lt hxy ys xs] at hba
        exact absurd hba (by simp)

theorem jsLtB_le_trans {a b c : Record} (hba : jsLtB b a = false) (hcb : jsLtB c b = false) :
    jsLtB c a = false := by
  by_cases hca : jsLtB c a = true
  · by_cases hbc : jsLtB b c = true
    · have h1 : jsLtB b a = true := jsLtB_trans hbc hca
      rw [h1] at hba
      exact absurd hba (by simp)
    · have hbc' : b = c := jsLtB_conn (by simpa using hbc) hcb
      subst hbc'
      rw [hca] at hba
      exact absurd hba (by simp)
  · simpa using hca

theorem jsLtB_le_of_lt_of_le {a b c : Record} (hab : jsLtB a b = true)
    (hcb : jsLtB c b = false) : jsLtB c a = false := by
  by_cases hca : jsLtB c a = true
  · have h1 : jsLtB c b = true := jsLtB_trans hca hab
    rw [h1] at hcb
    exact absurd hcb (by simp)
  · simpa using hca

theorem insertRecord_perm (r : Record) (l : List Record) :
    List.Perm (insertRecord r l) (r :: l) := by
  induction l with
  | nil => exact List.Perm.refl _
  | cons x xs ih =>
    by_cases h : jsLtB x r
    · simp only [insertRecord, h, if_pos]
      exact ((ih.cons x).trans (List.Perm.swap r x xs))
    · simp only [insertRecord, h, if_neg, Bool.false_eq_true, not_false_iff]
      exact List.Perm.refl _

theorem sortRecords_perm (l : List Record) : List.Perm (sortRecords l) l := by
  induction l with
  | nil => exact List.Perm.refl _
  | cons x xs ih =>
    exact (insertRecord_perm x (sortRecords xs)).trans (ih.cons x)

theorem insertRecord_sorted (r : Record) (l : List Record)
    (h : List.Pairwise (fun a b => jsLtB b a = false) l) :
    List.Pairwise (fun a b => jsLtB b a = false) (insertRecord r l) := by
  induction l with
  | nil => simp [insertRecord]
  | cons x xs ih =>
    rcases List.pairwise_cons.mp h with ⟨hx, hxs⟩
    by_cases hlt : jsLtB x r
    · simp only [insertRecord, hlt, if_pos]
      refine List.pairwise_cons.mpr ⟨?_, ih hxs⟩
      intro b hb
      have hb' := (insertRecord_perm r xs).mem_iff.mp hb
      rcases List.mem_cons.mp hb' with hb1 | hb2
      · subst hb1
        exact jsLtB_asymm hlt
      · exact hx b hb2
    · have hxr : jsLtB x r = false := by simpa using hlt
      simp only [insertRecord, hlt, Bool.false_eq_true, if_neg, not_false_iff]
      refine List.pairwise_cons.mpr ⟨?_, h⟩
      intro b hb
      rcases List.mem_cons.mp hb with hb1 | hb2
      · subst hb1
        exact hxr
      · exact jsLtB_le_trans hxr (hx b hb2)

theorem sortRecords_sorted (l : List Record) :
    List.Pairwise (fun a b => jsLtB b a = false) (sortRecords l) := by
  induction l with
  | nil => simp [sortRecords]
  | cons x xs ih => exact insertRecord_sorted x (sortRecords xs) ih

theorem minLineFold_eq_or_mem (m : Record) (l : List Record) :
    l.foldl minLineStep m = m ∨ (l.foldl minLineStep m ∈ l ∧ l.foldl minLineStep m ≠ []) := by
  induction l generalizing m with
  | nil => exact Or.inl rfl
  | cons c cs ih =>
    rcases ih (minLineStep m c) with h | h
    · rw [List.foldl_cons, h]
      unfold minLineStep
      by_cases hc : c ≠ [] ∧ jsLtB c m = true
      · rw [if_pos hc]
        exact Or.inr ⟨List.mem_cons_self c cs, hc.1⟩
      · rw [if_neg hc]
        exact Or.inl rfl
    · exact Or.inr ⟨List.mem_cons_of_mem c h.1, h.2⟩

theorem minLineFold_ne_nil (m : Record) (l : List Record) (hm : m ≠ []) :
    l.foldl minLineStep m ≠ [] := by
  rcases minLineFold_eq_or_mem m l with h | h
  · rw [h]; exact hm
  · exact h.2

theorem minLineFold_le_init (m : Record) (l : List Record) :
    jsLtB m (l.foldl minLineStep m) = false := by
  induction l generalizing m with
  | nil => exact jsLtB_irrefl m
  | cons c cs ih =>
    rw [List.foldl_cons]
    have hstep : jsLtB m (minLineStep m c) = false := by
      unfold minLineStep
      by_cases hc : c ≠ [] ∧ jsLtB c m = true
      · rw [if_pos hc]
        exact jsLtB_asymm hc.2
      · rw [if_neg hc]
        exact jsLtB_irrefl m
    exact jsLtB_le_trans (ih (minLineStep m c)) hstep

theorem minLineFold_le_mem (m : Record) (l : List Record) :
    ∀ v ∈ l, v ≠ [] → jsLtB v (l.foldl minLineStep m) = false := by
  induction l generalizing m with
  | nil => intro v hv; exact absurd hv (List.not_mem_nil v)
  | cons c cs ih =>
    intro v hv hvne
    rcases List.mem_cons.mp hv with hv1 | hv2
    · subst hv1
      rw [List.foldl_cons]
      have hstep : jsLtB v (minLineStep m v) = false := by
        unfold minLineStep
        by_cases hc : v ≠ [] ∧ jsLtB v m = true
        · rw [if_pos hc]
          exact jsLtB_irrefl v
        · rw [if_neg hc]
          have : jsLtB v m = false := by
            by_cases h2 : jsLtB v m = true
            · exact absurd ⟨hvne, h2⟩ hc
            · simpa using h2
          exact this
      exact jsLtB_le_trans (minLineFold_le_init (minLineStep m v) cs) hstep
    · exact ih (minLineStep m c) v hv2 hvne

theorem jsIndexOfAux_eq_none (x : Record) (l : List Record) (h : x ∉ l) :
    jsIndexOfAux x l = none := by
  induction l with
  | nil => rfl
  | cons y ys ih =>
    have hyx : y ≠ x := fun he => h (he ▸ List.mem_cons_self y ys)
    simp only [jsIndexOfAux, hyx, if_neg, not_false_iff]
    rw [ih (fun hm => h (List.mem_cons_of_mem y hm))]
    rfl

theorem jsIndexOfAux_mem (x : Record) (l : List Record) (h : x ∈ l) :
    ∃ i : Nat, jsIndexOfAux x l = some i ∧
      ∃ hi : i < l.length, l.get ⟨i, hi⟩ = x ∧ ∀ j, j < i → ∀ hj : j < l.length, l.get ⟨j, hj⟩ ≠ x := by
  induction l with
  | nil => exact absurd h (List.not_mem_nil x)
  | cons y ys ih =>
    by_cases hyx : y = x
    · refine ⟨0, by simp [jsIndexOfAux, hyx], by simp, by simpa using hyx, ?_⟩
      intro j hj
      exact absurd hj (Nat.not_lt_zero j)
    · have hx : x ∈ ys := by
        rcases List.mem_cons.mp h with h1 | h2
        · exact absurd h1.symm hyx
        · exact h2
      rcases ih hx with ⟨i, hsome, hi, hget, hfirst⟩
      refine ⟨i + 1, ?_, by simpa using Nat.succ_lt_succ hi, by simpa using hget, ?_⟩
      · simp [jsIndexOfAux, hyx, hsome]
      · intro j hj hjlen
        cases j with
        | zero => simpa using hyx
        | succ j' =>
          have hj' : j' < i := Nat.lt_of_succ_lt_succ hj
          have hj'len : j' < ys.length := Nat.lt_of_succ_lt_succ (by simpa using hjlen)
          simpa using hfirst j' hj' hj'len

theorem jsIndexOf_neg (l : List Record) (x : Record) (h : x ∉ l) : jsIndexOf l x = -1 := by
  unfold jsIndexOf
  rw [jsIndexOfAux_eq_none x l h]

theorem jsIndexOf_mem (l : List Record) (x : Record) (h : x ∈ l) :
    ∃ i : Nat, jsIndexOf l x = (i : Int) ∧
      ∃ hi : i < l.length, l.get ⟨i, hi⟩ = x ∧ ∀ j, j < i → ∀ hj : j < l.length, l.get ⟨j, hj⟩ ≠ x := by
  rcases jsIndexOfAux_mem x l h with ⟨i, hsome, hrest⟩
  refine ⟨i, ?_, hrest⟩
  unfold jsIndexOf
  rw [hsome]

theorem jsIndexOf_ofNat (l : List Record) (x : Record) (i : Nat)
    (h : jsIndexOf l x = (i : Int)) :
    ∃ hi : i < l.length, l.get ⟨i, hi⟩ = x := by
  by_cases hmem : x ∈ l
  · rcases jsIndexOf_mem l x hmem with ⟨i', hi', hlen, hget, _⟩
    have hii : (i' : Int) = (i : Int) := hi'.symm.trans h
    have hii' : i' = i := by exact_mod_cast hii
    subst hii'
    exact ⟨hlen, hget⟩
  · rw [jsIndexOf_neg l x hmem] at h
    exact absurd h (by omega)

theorem minLineFold_mem_of_le_sentinel {lines : List Record} {l : Record}
    (hl : l ∈ lines) (hlne : l ≠ []) (hle : jsLtB maxAsciiChar l = false) :
    lines.foldl minLineStep maxAsciiChar ∈ lines := by
  rcases minLineFold_eq_or_mem maxAsciiChar lines with h | h
  · have h1 : jsLtB l (lines.foldl minLineStep maxAsciiChar) = false :=
      minLineFold_le_mem maxAsciiChar lines l hl hlne
    rw [h] at h1 ⊢
    have h2 : maxAsciiChar = l := jsLtB_conn hle h1
    rw [h2]
    exact hl
  · exact h.1

/-- C9 (amended): if every non-exhausted buffered value is strictly greater
than the one-character sentinel `MAX_ASCII_CHAR` then `findMinLine` returns
`minIndex = -1`; and in general the selection returns a valid index exactly
when some non-exhausted value is less than or equal to the sentinel (the
equality case also yields a valid index, contrary to the original claim). -/
theorem claim9_amended_sentinel (lines : List Record) :
    ((∀ l ∈ lines, l ≠ [] → jsLtB maxAsciiChar l = true) → (findMinLine lines).2 = -1) ∧
    ((findMinLine lines).2 ≠ -1 ↔ ∃ l ∈ lines, l ≠ [] ∧ jsLtB maxAsciiChar l = false) := by
  constructor
  · intro hall
    have hm : lines.foldl minLineStep maxAsciiChar = maxAsciiChar := by
      rcases minLineFold_eq_or_mem maxAsciiChar lines with h | h
      · exact h
      · have h1 := hall _ h.1 h.2
        have h2 := minLineFold_le_init maxAsciiChar lines
        rw [h1] at h2
        exact absurd h2 (by simp)
    have hnotmem : maxAsciiChar ∉ lines := by
      intro hmem
      have h1 := hall _ hmem (by simp [maxAsciiChar])
      rw [jsLtB_irrefl] at h1
      exact absurd h1 (by simp)
    show jsIndexOf lines (lines.foldl minLineStep maxAsciiChar) = -1
    rw [hm]
    exact jsIndexOf_neg lines maxAsciiChar hnotmem
  · constructor
    · intro hne
      have hmem : lines.foldl minLineStep maxAsciiChar ∈ lines := by
        by_contra hnm
        exact hne (jsIndexOf_neg lines _ hnm)
      refine ⟨lines.foldl minLineStep maxAsciiChar, hmem, ?_, ?_⟩
      · exact minLineFold_ne_nil maxAsciiChar lines (by simp [maxAsciiChar])
      · exact minLineFold_le_init maxAsciiChar lines
    · rintro ⟨l, hl, hlne, hle⟩
      have hmem := minLineFold_mem_of_le_sentinel hl hlne hle
      rcases jsIndexOf_mem lines _ hmem with ⟨i, hi, _⟩
      show jsIndexOf lines (lines.foldl minLineStep maxAsciiChar) ≠ -1
      rw [hi]
      omega

/-- C9 counterexample: with a single non-exhausted buffer holding exactly the
sentinel value, every non-exhausted value is greater than or equal to the
sentinel, yet `findMinLine` returns index 0, not `-1` as the claim states. -/
theorem claim9_counterexample :
    (∀ l ∈ [([127] : Record)], l ≠ [] → jsLtB l maxAsciiChar = false) ∧
    (findMinLine [[127]]).2 = 0 ∧ ¬ (findMinLine [[127]]).2 = -1 := by
  refine ⟨?_, by decide, by decide⟩
  intro l hl
  rcases List.mem_singleton.mp hl with rfl
  intro
  decide

/-- Witness for the amended C9 at a concrete state: both buffered values are
strictly above the sentinel, and `findMinLine` indeed returns `-1`. -/
theorem claim9_amended_sentinel_witness :
    (findMinLine [[127, 127], [127, 65]]).2 = -1 :=
  (claim9_amended_sentinel [[127, 127], [127, 65]]).1 (by decide)

/-- C7: in any merge selection step, when the buffer at index `i` holds a
smallest non-exhausted value (at or below the sentinel, so that a selection
happens at all) and the buffer at a later index `j` holds an equal value,
`findMinLine` selects the first buffer holding that value, an index at most
`i` and in particular not `j`: the lowest run index wins ties. -/
theorem claim7_tiebreak (lines : List Record) (i j : Nat)
    (hi : i < lines.length) (hj : j < lines.length) (hij : i < j)
    (_heq : lines.get ⟨i, hi⟩ = lines.get ⟨j, hj⟩)
    (hne : lines.get ⟨i, hi⟩ ≠ [])
    (hmin : ∀ k, ∀ hk : k < lines.length,
      lines.get ⟨k, hk⟩ ≠ [] → jsLtB (lines.get ⟨k, hk⟩) (lines.get ⟨i, hi⟩) = false)
    (hsen : jsLtB maxAsciiChar (lines.get ⟨i, hi⟩) = false) :
    ∃ m : Nat, (findMinLine lines).2 = (m : Int) ∧ m ≤ i ∧ m ≠ j ∧
      ∃ hm : m < lines.length, lines.get ⟨m, hm⟩ = lines.get ⟨i, hi⟩ := by
  have hmem : lines.get ⟨i, hi⟩ ∈ lines := List.get_mem lines i hi
  have hfold : lines.foldl minLineStep maxAsciiChar = lines.get ⟨i, hi⟩ := by
    have hub : jsLtB (lines.get ⟨i, hi⟩) (lines.foldl minLineStep maxAsciiChar) = false :=
      minLineFold_le_mem maxAsciiChar lines _ hmem hne
    rcases minLineFold_eq_or_mem maxAsciiChar lines with h | h
    · rw [h] at hub ⊢
      exact (jsLtB_conn hsen hub).symm ▸ rfl
    · rcases List.mem_iff_get.mp h.1 with ⟨⟨k, hk⟩, hkeq⟩
      have hlb := hmin k hk (by rw [hkeq]; exact h.2)
      rw [hkeq] at hlb
      exact jsLtB_conn hlb hub
  rcases jsIndexOf_mem lines _ hmem with ⟨m, hmeq, hm, hget, hfirst⟩
  have hmi : m ≤ i := by
    by_contra hgt
    exact hfirst i (by omega) hi rfl
  refine ⟨m, ?_, hmi, by omega, hm, hget⟩
  show jsIndexOf lines (lines.foldl minLineStep maxAsciiChar) = (m : Int)
  rw [hfold]
  exact hmeq

/-- Witness for C7: buffers `"b"`, `"a"`, `"a"`; the two `"a"` buffers tie
for the minimum and the one at index 1 is selected. -/
theorem claim7_tiebreak_witness :
    ∃ m : Nat, (findMinLine [[98], [97], [97]]).2 = (m : Int) ∧ m ≤ 1 ∧ m ≠ 2 ∧
      ∃ hm : m < ([[98], [97], [97]] : List Record).length,
        ([[98], [97], [97]] : List Record).get ⟨m, hm⟩ =
          ([[98], [97], [97]] : List Record).get ⟨1, by decide⟩ :=
  claim7_tiebreak [[98], [97], [97]] 1 2 (by decide) (by decide) (by decide) (by decide)
    (by decide) (by decide) (by decide)

/-- C6: `checkOutputDirectory` calls `fsp.access` on the output file path
itself, not on its parent directory.  In a state where the parent directory
`TestFiles` is accessible but the output file `TestFiles/output1.txt` does
not yet exist, validation fails with the output-directory error although the
claim says the check passes whenever the parent directory exists. -/
theorem claim6_output_check_is_on_file_path :
    parentDir "TestFiles/output1.txt" = "TestFiles" ∧
    (FS.mk (fun p => if p = "TestFiles" then some [] else none) (fun _ => 0)).files
      (parentDir "TestFiles/output1.txt") = some [] ∧
    checkOutputDirectory
      (FS.mk (fun p => if p = "TestFiles" then some [] else none) (fun _ => 0))
      "TestFiles/output1.txt" = .error .outputDirectoryMissing := by
  refine ⟨?_, ?_, ?_⟩ <;> rfl

/-- C5: any validation failure makes `Sort` propagate that error with no
side effect at all: the returned file system is the input file system, so no
temporary run file is created and the output file is neither created nor
truncated. -/
theorem claim5_validation_no_side_effects (cfg : Config) (fs : FS)
    (inFilename outFilename : String) (e : SortError)
    (h : validateInput cfg fs inFilename outFilename = .error e) :
    Sort' cfg inFilename outFilename fs = (fs, .error e) := by
  unfold Sort'
  rw [h]

/-- Witness for C5: a one-record file with `numberOfLinesPerSegment = 2`
fails validation with `recordCountNotDivisible`, and `Sort` returns the
unchanged file system together with that error. -/
theorem claim5_validation_no_side_effects_witness :
    validateInput ⟨800000, 2, 7⟩
      (FS.mk (fun p => if p = "in.txt" then some [97, 97, 97, 97, 97, 13, 10]
              else if p = "out.txt" then some [] else none) (fun _ => 0))
      "in.txt" "out.txt" = .error .recordCountNotDivisible ∧
    Sort' ⟨800000, 2, 7⟩ "in.txt" "out.txt"
      (FS.mk (fun p => if p = "in.txt" then some [97, 97, 97, 97, 97, 13, 10]
              else if p = "out.txt" then some [] else none) (fun _ => 0)) =
      ((FS.mk (fun p => if p = "in.txt" then some [97, 97, 97, 97, 97, 13, 10]
              else if p = "out.txt" then some [] else none) (fun _ => 0)),
        .error .recordCountNotDivisible) := by
  refine ⟨rfl, ?_⟩
  exact claim5_validation_no_side_effects _ _ _ _ _ rfl

theorem dropHandle_bumpHandle (h : String → Nat) (p : String) :
    dropHandle (bumpHandle h p) p = h := by
  funext q
  unfold dropHandle bumpHandle
  by_cases hq : q = p <;> simp [hq]

/-- C10: for an empty (zero-byte) input file, `Sort` succeeds: validation
passes (zero lines is divisible by any nonzero segment size; the output path
must be accessible, which the implementation requires of every call), no
temporary run file is created (every path other than the output keeps its
prior content), the open-handle state is restored, and the output file is
created or truncated to the empty content. -/
theorem claim10_empty_input (cfg : Config) (fs : FS) (inFilename outFilename : String)
    (hin : fs.files inFilename = some [])
    (hout : (fs.files outFilename).isSome)
    (hn : cfg.numberOfLinesPerSegment ≠ 0) :
    (Sort' cfg inFilename outFilename fs).2 = .ok () ∧
    (Sort' cfg inFilename outFilename fs).1.files outFilename = some [] ∧
    (Sort' cfg inFilename outFilename fs).1.handles = fs.handles ∧
    ∀ p, p ≠ outFilename → (Sort' cfg inFilename outFilename fs).1.files p = fs.files p := by
  have hval : validateInput cfg fs inFilename outFilename = .ok () := by
    unfold validateInput checkFileExists checkFileSizeLimit checkLineLengthAndCount checkAux
      checkOutputDirectory
    rw [hin]
    rcases Option.isSome_iff_exists.mp hout with ⟨c, hc⟩
    rw [hc]
    simp [hn]
  have hseg : sortSegments cfg inFilename ([] : List Nat) = [] := by
    unfold sortSegments sortSegAux readSegment
    cases hcount : cfg.numberOfLinesPerSegment with
    | zero => simp [readSegAux]
    | succ k => simp [readSegAux]
  unfold Sort'
  rw [hval, hin]
  simp only [Option.getD_some, hseg]
  unfold mergeSegments
  simp only [List.map_nil, List.foldl_nil]
  refine ⟨rfl, ?_, ?_, ?_⟩
  · simp [performMerge, mergeFuel, mergeLoop, encodeOut]
  · exact dropHandle_bumpHandle fs.handles outFilename
  · intro p hp
    simp [hp]

/-- Witness for C10: a concrete empty input with an output file holding stale
bytes; `Sort` succeeds, truncates the output and touches nothing else. -/
theorem claim10_empty_input_witness :
    (Sort' ⟨10, 2, 7⟩ "in.txt" "out.txt"
      (FS.mk (fun p => if p = "in.txt" then some [] else
        if p = "out.txt" then some [1, 2, 3] else none) (fun _ => 0))).2 = .ok () ∧
    (Sort' ⟨10, 2, 7⟩ "in.txt" "out.txt"
      (FS.mk (fun p => if p = "in.txt" then some [] else
        if p = "out.txt" then some [1, 2, 3] else none) (fun _ => 0))).1.files "out.txt" =
      some [] := by
  have h := claim10_empty_input ⟨10, 2, 7⟩
    (FS.mk (fun p => if p = "in.txt" then some [] else
      if p = "out.txt" then some [1, 2, 3] else none) (fun _ => 0))
    "in.txt" "out.txt" (by simp) (by simp) (by decide)
  exact ⟨h.1, h.2.1⟩

theorem chunksGo_eq_chunksExact {α : Type} (W : Nat) :
    ∀ fuel (l : List α), l.length ≤ fuel → chunksGo W fuel l = chunksExact W l := by
  have key : ∀ f1 f2 (l : List α), l.length ≤ f1 → l.length ≤ f2 →
      chunksGo W f1 l = chunksGo W f2 l := by
    intro f1
    induction f1 with
    | zero =>
      intro f2 l h1 h2
      have : l = [] := List.eq_nil_of_length_eq_zero (Nat.le_zero.mp h1)
      subst this
      cases f2 with
      | zero => rfl
      | succ f2 => rfl
    | succ f1 ih =>
      intro f2 l h1 h2
      cases f2 with
      | zero =>
        have : l = [] := List.eq_nil_of_length_eq_zero (Nat.le_zero.mp h2)
        subst this
        cases f1 <;> rfl
      | succ f2 =>
        cases l with
        | nil => rfl
        | cons x xs =>
          show chunksGo W (f1 + 1) (x :: xs) = chunksGo W (f2 + 1) (x :: xs)
          unfold chunksGo
          by_cases hW : W = 0
          · rw [if_pos hW, if_pos hW]
          · rw [if_neg hW, if_neg hW]
            have hWpos : 0 < W := Nat.pos_of_ne_zero hW
            have hlen : ((x :: xs).drop W).length ≤ f1 := by
              rw [List.length_drop]
              simp only [List.length_cons] at h1 ⊢
              omega
            have hlen2 : ((x :: xs).drop W).length ≤ f2 := by
              rw [List.length_drop]
              simp only [List.length_cons] at h2 ⊢
              omega
            rw [ih f2 ((x :: xs).drop W) hlen hlen2]
  intro fuel l h
  exact key fuel l.length l h (Nat.le_refl _)

theorem chunksExact_nil {α : Type} (W : Nat) : chunksExact W ([] : List α) = [] := by
  unfold chunksExact
  rfl

theorem chunksExact_cons {α : Type} (W : Nat) (l : List α) (hW : 0 < W) (hl : l ≠ []) :
    chunksExact W l = l.take W :: chunksExact W (l.drop W) := by
  have h1 : chunksExact W l = chunksGo W l.length l := rfl
  rw [h1]
  cases l with
  | nil => exact absurd rfl hl
  | cons x xs =>
    show chunksGo W ((x :: xs).length) (x :: xs) = _
    rw [List.length_cons]
    unfold chunksGo
    rw [if_neg (Nat.pos_iff_ne_zero.mp hW)]
    have hk : ((x :: xs).drop W).length ≤ xs.length := by
      rw [List.length_drop]
      simp only [List.length_cons]
      omega
    rw [chunksGo_eq_chunksExact W xs.length ((x :: xs).drop W) hk]

theorem checkAux_spec (W n : Nat) (hW : 0 < W) :
    ∀ fuel (remaining buffer : List Nat) (count : Nat),
      remaining.length < fuel → W ∣ remaining.length → buffer.length = W →
      ((checkAux W n fuel remaining buffer count = .error .malformedRecordWidth ↔
        ∃ w ∈ chunksExact W remaining, (jsTrim (decodeAscii w)).length + 2 ≠ W) ∧
       (checkAux W n fuel remaining buffer count = .ok () → n ≠ 0)) := by
  intro fuel
  induction fuel with
  | zero =>
    intro remaining buffer count hfuel
    omega
  | succ fuel ih =>
    intro remaining buffer count hfuel hdvd hbuf
    by_cases hrem : remaining = []
    · subst hrem
      constructor
      · unfold checkAux
        constructor
        · intro h
          by_cases hn : n ≠ 0 ∧ count % n = 0 <;> simp [hn] at h
        · rintro ⟨w, hw, _⟩
          rw [chunksExact_nil] at hw
          exact absurd hw (List.not_mem_nil w)
      · unfold checkAux
        intro h
        by_cases hn : n ≠ 0 ∧ count % n = 0
        · exact hn.1
        · simp [hn] at h
    · have hlenpos : 0 < remaining.length := List.length_pos.mpr hrem
      have hWle : W ≤ remaining.length := Nat.le_of_dvd hlenpos hdvd
      have htake : (remaining.take W).length = W := by
        rw [List.length_take]
        omega
      obtain ⟨c, cs, hchunk⟩ : ∃ c cs, remaining.take W = c :: cs := by
        cases hx : remaining.take W with
        | nil => rw [hx] at htake; simp at htake; omega
        | cons c cs => exact ⟨c, cs, rfl⟩
      have hbuf' : ((c :: cs) ++ buffer.drop (c :: cs).length) = c :: cs := by
        have h2 : (c :: cs).length = W := by rw [← hchunk]; exact htake
        have h3 : buffer.drop W = [] := by rw [← hbuf]; exact List.drop_length buffer
        rw [h2, h3, List.append_nil]
      have hstep : checkAux W n (fuel + 1) remaining buffer count =
          (if (jsTrim (decodeAscii (c :: cs))).length + 2 ≠ W then .error .malformedRecordWidth
           else checkAux W n fuel (remaining.drop (c :: cs).length) (c :: cs) (count + 1)) := by
        conv =>
          lhs
          unfold checkAux
        rw [hchunk]
        simp only [hbuf']
      have hclen : (c :: cs).length = W := by rw [← hchunk]; exact htake
      have hdrop : remaining.drop (c :: cs).length = remaining.drop W := by rw [hclen]
      have hrest_fuel : (remaining.drop W).length < fuel := by
        rw [List.length_drop]
        omega
      have hrest_dvd : W ∣ (remaining.drop W).length := by
        rw [List.length_drop]
        exact (Nat.dvd_sub' hdvd (Nat.dvd_refl W))
      have hrest_buf : (c :: cs).length = W := hclen
      have hchunks : chunksExact W remaining =
          remaining.take W :: chunksExact W (remaining.drop W) :=
        chunksExact_cons W remaining hW hrem
      rcases ih (remaining.drop W) (c :: cs) (count + 1) hrest_fuel hrest_dvd hrest_buf
        with ⟨ihiff, ihok⟩
      constructor
      · rw [hstep]
        by_cases hbad : (jsTrim (decodeAscii (c :: cs))).length + 2 ≠ W
        · rw [if_pos hbad]
          constructor
          · intro _
            exact ⟨remaining.take W, by rw [hchunks]; exact List.mem_cons_self _ _,
              by rw [hchunk]; exact hbad⟩
          · intro _
            rfl
        · rw [if_neg hbad, hdrop]
          rw [ihiff]
          constructor
          · rintro ⟨w, hw, hwbad⟩
            exact ⟨w, by rw [hchunks]; exact List.mem_cons_of_mem _ hw, hwbad⟩
          · rintro ⟨w, hw, hwbad⟩
            rw [hchunks] at hw
            rcases List.mem_cons.mp hw with hw1 | hw2
            · subst hw1
              rw [hchunk] at hwbad
              exact absurd hwbad hbad
            · exact ⟨w, hw2, hwbad⟩
      · rw [hstep]
        by_cases hbad : (jsTrim (decodeAscii (c :: cs))).length + 2 ≠ W
        · rw [if_pos hbad]
          intro h
          exact absurd h (by simp)
        · rw [if_neg hbad, hdrop]
          exact ihok

/-- C4 counterexample: the four-byte file consisting of the single record
with payload `"a "` and the two-byte terminator occupies exactly
`recordWidth = 4` bytes, yet validation raises the malformed-record-width
error, because the check compares the trimmed payload length (here 1, the
trailing space is removed) with `recordWidth - 2`. -/
theorem claim4_counterexample :
    [97, 32, 13, 10] = encodeRecord [97, 32] ++ eolBytes ∧
    (encodeRecord [97, 32] ++ eolBytes).length = 4 ∧
    checkLineLengthAndCount ⟨800000, 1, 4⟩ [97, 32, 13, 10] =
      .error .malformedRecordWidth := by
  exact ⟨rfl, rfl, rfl⟩

/-- C4 (amended): for a positive record width dividing the file size, the
width check raises `MalformedRecordWidth` exactly when some
`recordWidth`-byte window of the file, decoded as ASCII and trimmed of
leading and trailing whitespace, does not have payload length
`recordWidth - 2`.  A record of exactly `recordWidth` bytes passes iff its
payload survives trimming at full length. -/
theorem claim4_amended_width_check (cfg : Config) (file : List Nat)
    (hW : 0 < cfg.lineSizeBytes) (hdvd : cfg.lineSizeBytes ∣ file.length) :
    checkLineLengthAndCount cfg file = .error .malformedRecordWidth ↔
      ∃ w ∈ chunksExact cfg.lineSizeBytes file,
        (jsTrim (decodeAscii w)).length + 2 ≠ cfg.lineSizeBytes := by
  exact (checkAux_spec cfg.lineSizeBytes cfg.numberOfLinesPerSegment hW (file.length + 1)
    file (List.replicate cfg.lineSizeBytes 0) 0 (Nat.lt_succ_self _) hdvd
    (List.length_replicate _ _)).1

/-- Witness for the amended C4: a two-record file whose second window has a
whitespace-shortened payload is rejected, and the window that violates the
length condition is exhibited. -/
theorem claim4_amended_width_check_witness :
    checkLineLengthAndCount ⟨800000, 1, 4⟩ [97, 98, 13, 10, 99, 32, 13, 10] =
      .error .malformedRecordWidth ∧
    (0 < (4 : Nat)) ∧ ((4 : Nat) ∣ ([97, 98, 13, 10, 99, 32, 13, 10] : List Nat).length) ∧
    ∃ w ∈ chunksExact 4 [97, 98, 13, 10, 99, 32, 13, 10],
      (jsTrim (decodeAscii w)).length + 2 ≠ 4 := by
  refine ⟨?_, by decide, by decide, ?_⟩
  · rfl
  · exact (claim4_amended_width_check ⟨800000, 1, 4⟩ [97, 98, 13, 10, 99, 32, 13, 10]
      (by decide) (by decide)).mp rfl

theorem sortSegAux_names (cfg : Config) (inFilename : String) (file : List Nat) :
    ∀ fuel pos c, (sortSegAux cfg inFilename file fuel pos c).map (fun s => s.1) =
      (List.range' c (sortSegAux cfg inFilename file fuel pos c).length).map
        (tempFilePath inFilename) := by
  intro fuel
  induction fuel with
  | zero => intro pos c; rfl
  | succ fuel ih =>
    intro pos c
    show (sortSegAux cfg inFilename file (fuel + 1) pos c).map (fun s => s.1) = _
    unfold sortSegAux
    cases hlines : readSegment cfg file pos with
    | nil => rfl
    | cons l ls =>
      simp only [List.map_cons, List.length_cons, List.range'_succ, ih]

theorem tempFilePath_ext (base ext : String) (hext : ext.data.length = 4) (i : Nat) :
    tempFilePath (base ++ ext) i = base ++ "-temp-" ++ toString i ++ ".txt" := by
  unfold tempFilePath sliceDropLast4
  have h1 : (base ++ ext).data = base.data ++ ext.data := String.data_append base ext
  have h2 : (base ++ ext).data.take ((base ++ ext).data.length - 4) = base.data := by
    rw [h1, List.length_append, hext]
    have : base.data.length + 4 - 4 = base.data.length := by omega
    rw [this, List.take_left]
  rw [h2]

/-- C8 counterexample: for the input path `"a.md"` the first temporary run
file is named `"-temp-0.txt"` — the code removes the last four characters of
the path unconditionally (here swallowing the whole name `"a"` with its
two-character extension) — whereas the claimed format
`<inputPathWithoutExtension>-temp-<i><originalExtension-or-".txt">` would
give `"a-temp-0.md"` or `"a-temp-0.txt"`. -/
theorem claim8_counterexample :
    tempFilePath "a.md" 0 = "-temp-0.txt" ∧
    tempFilePath "a.md" 0 ≠ "a-temp-0.md" ∧
    tempFilePath "a.md" 0 ≠ "a-temp-0.txt" := by
  refine ⟨?_, ?_, ?_⟩ <;> decide

/-- C8 (amended): the i-th temporary run file is named
`<inputPathWithItsLastFourCharactersRemoved>-temp-<i>.txt` with `i` starting
at 0 and incrementing by 1 per run; when the input path ends in a
four-character extension (such as `.txt`) this is
`<inputPathWithoutExtension>-temp-<i>.txt`, which lives in the input file's
directory but always carries extension `.txt`, not the original extension. -/
theorem claim8_amended_temp_naming (cfg : Config) (file : List Nat) (base ext : String)
    (hext : ext.data.length = 4) :
    (sortSegments cfg (base ++ ext) file).map (fun s => s.1) =
      (List.range (sortSegments cfg (base ++ ext) file).length).map
        (fun i => base ++ "-temp-" ++ toString i ++ ".txt") := by
  unfold sortSegments
  rw [sortSegAux_names cfg (base ++ ext) file (file.length + 1) 0 0,
    ← List.range_eq_range']
  exact List.map_congr_left (fun i _ => tempFilePath_ext base ext hext i)

/-- Witness for the amended C8: the two runs of the C1 failing-input file are
named `in-temp-0.txt` and `in-temp-1.txt`. -/
theorem claim8_amended_temp_naming_witness :
    (sortSegments ⟨800000, 1, 7⟩ ("in" ++ ".txt")
        [97, 98, 99, 100, 101, 13, 10, 102, 103, 104, 105, 106]).map (fun s => s.1) =
      ["in" ++ "-temp-" ++ toString 0 ++ ".txt", "in" ++ "-temp-" ++ toString 1 ++ ".txt"] := by
  rw [claim8_amended_temp_naming ⟨800000, 1, 7⟩
    [97, 98, 99, 100, 101, 13, 10, 102, 103, 104, 105, 106] "in" ".txt" (by decide)]
  rfl

/-- C1 evaluated at a failing input: the 12-byte file `"abcde\r\nfghij"`
(final record missing its terminator) with `recordWidth = 7` and one record
per segment passes validation — the short final read leaves the previous
chunk's terminator bytes in the reused buffer, so the width check sees a
well-formed record — yet `Sort` completes successfully with an output whose
records are not sorted: the run writer pads the truncated record with stale
NUL bytes, and the merge then reads a trailing window of the oversized run
that trims to five NUL characters and writes it after a larger record.  The
written sequence is `"abcde"`, `"fghij\x00\x00"`, `"\x00\x00\x00\x00\x00"`,
and the last two adjacent records are out of order, refuting the claim that
every validated input yields a sorted output. -/
theorem claim1_sortedness_fails_on_validated_input :
    validateInput ⟨800000, 1, 7⟩
      (FS.mk (fun p => if p = "in.txt"
          then some [97, 98, 99, 100, 101, 13, 10, 102, 103, 104, 105, 106]
          else if p = "out.txt" then some [] else none) (fun _ => 0))
      "in.txt" "out.txt" = .ok () ∧
    (Sort' ⟨800000, 1, 7⟩ "in.txt" "out.txt"
      (FS.mk (fun p => if p = "in.txt"
          then some [97, 98, 99, 100, 101, 13, 10, 102, 103, 104, 105, 106]
          else if p = "out.txt" then some [] else none) (fun _ => 0))).2 = .ok () ∧
    (mergedOutput ⟨800000, 1, 7⟩ "in.txt"
        [97, 98, 99, 100, 101, 13, 10, 102, 103, 104, 105, 106]).1 =
      [[97, 98, 99, 100, 101], [102, 103, 104, 105, 106, 0, 0], [0, 0, 0, 0, 0]] ∧
    jsLtB [0, 0, 0, 0, 0] [102, 103, 104, 105, 106, 0, 0] = true ∧
    ¬ List.Chain' (fun a b => jsLtB b a = false)
      (mergedOutput ⟨800000, 1, 7⟩ "in.txt"
        [97, 98, 99, 100, 101, 13, 10, 102, 103, 104, 105, 106]).1 ∧
    (Sort' ⟨800000, 1, 7⟩ "in.txt" "out.txt"
      (FS.mk (fun p => if p = "in.txt"
          then some [97, 98, 99, 100, 101, 13, 10, 102, 103, 104, 105, 106]
          else if p = "out.txt" then some [] else none) (fun _ => 0))).1.files "out.txt" =
      some (encodeOut 7
        [[97, 98, 99, 100, 101], [102, 103, 104, 105, 106, 0, 0], [0, 0, 0, 0, 0]]) := by
  refine ⟨rfl, rfl, rfl, rfl, ?_, rfl⟩
  intro hch
  have hL : (mergedOutput ⟨800000, 1, 7⟩ "in.txt"
      [97, 98, 99, 100, 101, 13, 10, 102, 103, 104, 105, 106]).1 =
      [[97, 98, 99, 100, 101], [102, 103, 104, 105, 106, 0, 0], [0, 0, 0, 0, 0]] := rfl
  rw [hL] at hch
  have h2 := (List.chain'_cons.mp (List.chain'_cons.mp hch).2).1
  exact absurd h2 (by decide)

theorem foldl_bumpHandle (l : List String) :
    ∀ (h : String → Nat) (q : String), (l.foldl bumpHandle h) q = h q + l.count q := by
  induction l with
  | nil => intro h q; simp
  | cons p l ih =>
    intro h q
    rw [List.foldl_cons, ih (bumpHandle h p) q, List.count_cons]
    unfold bumpHandle
    by_cases hq : q = p
    · subst hq; simp; omega
    · have : ¬ p = q := fun hpq => hq hpq.symm
      simp [hq, this]

theorem foldl_dropHandle (l : List String) :
    ∀ (h : String → Nat) (q : String), (l.foldl dropHandle h) q = h q - l.count q := by
  induction l with
  | nil => intro h q; simp
  | cons p l ih =>
    intro h q
    rw [List.foldl_cons, ih (dropHandle h p) q, List.count_cons]
    unfold dropHandle
    by_cases hq : q = p
    · subst hq; simp; omega
    · have : ¬ p = q := fun hpq => hq hpq.symm
      simp [hq, this]

theorem dropHandle_apply (g : String → Nat) (p q : String) :
    dropHandle g p q = g q - (if q = p then 1 else 0) := by
  unfold dropHandle
  by_cases h : q = p <;> simp [h]

theorem bumpHandle_apply (g : String → Nat) (p q : String) :
    bumpHandle g p q = g q + (if q = p then 1 else 0) := by
  unfold bumpHandle
  by_cases h : q = p <;> simp [h]

theorem mergeSegments_handles (cfg : Config) (segments : List String)
    (outFilename : String) (fs : FS) :
    (mergeSegments cfg segments outFilename fs).1.handles = fs.handles := by
  unfold mergeSegments
  funext q
  show dropHandle (segments.foldl dropHandle
      (bumpHandle (segments.foldl bumpHandle fs.handles) outFilename)) outFilename q = _
  rw [dropHandle_apply, foldl_dropHandle, bumpHandle_apply, foldl_bumpHandle]
  omega

theorem mergeSegments_deletes (cfg : Config) (segments : List String)
    (outFilename : String) (fs : FS) :
    ∀ nm ∈ segments, (mergeSegments cfg segments outFilename fs).1.files nm = none := by
  intro nm hnm
  unfold mergeSegments
  simp [hnm]

/-- C3: after any `Sort` call that reaches the merge stage (validation
succeeded), whether the merge loop succeeds or fails, the `finally` cleanup
closes every run file handle and the output handle — the final open-handle
state equals the initial one — and deletes every temporary run file created
by `sortSegments`, so none of them remains on storage.  No hypothesis is
made on the merge outcome: the equations hold for the crashing merges of C9
and C1 as well. -/
theorem claim3_cleanup (cfg : Config) (fs : FS) (inFilename outFilename : String)
    (hval : validateInput cfg fs inFilename outFilename = .ok ()) :
    (Sort' cfg inFilename outFilename fs).1.handles = fs.handles ∧
    ∀ nm ∈ (sortSegments cfg inFilename ((fs.files inFilename).getD [])).map (fun s => s.1),
      (Sort' cfg inFilename outFilename fs).1.files nm = none := by
  unfold Sort'
  rw [hval]
  exact ⟨mergeSegments_handles _ _ _ _, mergeSegments_deletes _ _ _ _⟩

/-- Witness for C3 at the concrete input of C1 (a run whose merge succeeds)
with an initially open unrelated handle: both temporary run files are gone
and the handle state is unchanged. -/
theorem claim3_cleanup_witness :
    (Sort' ⟨800000, 1, 7⟩ "in.txt" "out.txt"
      (FS.mk (fun p => if p = "in.txt"
          then some [97, 98, 99, 100, 101, 13, 10, 102, 103, 104, 105, 106]
          else if p = "out.txt" then some [] else none)
        (fun p => if p = "other.txt" then 1 else 0))).1.handles =
      (fun p => if p = "other.txt" then 1 else 0) ∧
    ∀ nm ∈ (sortSegments ⟨800000, 1, 7⟩ "in.txt"
        [97, 98, 99, 100, 101, 13, 10, 102, 103, 104, 105, 106]).map (fun s => s.1),
      (Sort' ⟨800000, 1, 7⟩ "in.txt" "out.txt"
        (FS.mk (fun p => if p = "in.txt"
            then some [97, 98, 99, 100, 101, 13, 10, 102, 103, 104, 105, 106]
            else if p = "out.txt" then some [] else none)
          (fun p => if p = "other.txt" then 1 else 0))).1.files nm = none := by
  exact claim3_cleanup ⟨800000, 1, 7⟩
    (FS.mk (fun p => if p = "in.txt"
        then some [97, 98, 99, 100, 101, 13, 10, 102, 103, 104, 105, 106]
        else if p = "out.txt" then some [] else none)
      (fun p => if p = "other.txt" then 1 else 0)) "in.txt" "out.txt" rfl

theorem dropWhile_not_head (p : Nat → Bool) :
    ∀ (l : List Nat) {c t}, l.dropWhile p = c :: t → p c = false := by
  intro l
  induction l with
  | nil => intro c t h; exact absurd h (by simp)
  | cons x xs ih =>
    intro c t h
    rw [List.dropWhile_cons] at h
    by_cases hx : p x
    · rw [if_pos hx] at h
      exact ih h
    · rw [if_neg hx] at h
      cases h
      simpa using hx

theorem dropWhile_eq_self_of_head {p : Nat → Bool} {l : List Nat}
    (h : ∀ c t, l = c :: t → p c = false) : l.dropWhile p = l := by
  cases l with
  | nil => rfl
  | cons x xs =>
    rw [List.dropWhile_cons, if_neg]
    simp [h x xs rfl]

theorem dropWhile_suffix_decomp (p : Nat → Bool) (l : List Nat) :
    ∃ pre, l = pre ++ l.dropWhile p := by
  induction l with
  | nil => exact ⟨[], rfl⟩
  | cons x xs ih =>
    rw [List.dropWhile_cons]
    by_cases hx : p x
    · rcases ih with ⟨pre, hpre⟩
      exact ⟨x :: pre, by rw [if_pos hx]; simpa using hpre⟩
    · refine ⟨[], ?_⟩
      rw [if_neg hx]
      rfl



theorem jsTrim_eq_self {l : Record} (h1 : headNotWs l) (h2 : headNotWs l.reverse) :
    jsTrim l = l := by
  unfold jsTrim
  rw [dropWhile_eq_self_of_head h1, dropWhile_eq_self_of_head h2, List.reverse_reverse]

theorem jsTrim_headNotWs (x : Record) :
    headNotWs (jsTrim x) ∧ headNotWs (jsTrim x).reverse := by
  constructor
  · intro c ts hct
    rcases dropWhile_suffix_decomp isJsWs (x.dropWhile isJsWs).reverse with ⟨pre, hpre⟩
    have hx : x.dropWhile isJsWs = jsTrim x ++ pre.reverse := by
      unfold jsTrim
      calc x.dropWhile isJsWs = (x.dropWhile isJsWs).reverse.reverse := by
            rw [List.reverse_reverse]
        _ = (pre ++ (x.dropWhile isJsWs).reverse.dropWhile isJsWs).reverse := by rw [← hpre]
        _ = _ := by rw [List.reverse_append]
    rw [hct] at hx
    simp only [List.cons_append] at hx
    exact dropWhile_not_head isJsWs x hx
  · intro c ts hct
    have hrev : (jsTrim x).reverse = (x.dropWhile isJsWs).reverse.dropWhile isJsWs := by
      unfold jsTrim
      rw [List.reverse_reverse]
    rw [hrev] at hct
    exact dropWhile_not_head isJsWs _ hct

theorem jsTrim_idem (x : Record) : jsTrim (jsTrim x) = jsTrim x :=
  jsTrim_eq_self (jsTrim_headNotWs x).1 (jsTrim_headNotWs x).2

theorem jsTrim_mem {x : Record} {b : Nat} (hb : b ∈ jsTrim x) : b ∈ x := by
  have h1 : b ∈ (x.dropWhile isJsWs).reverse.dropWhile isJsWs := by
    have : jsTrim x = ((x.dropWhile isJsWs).reverse.dropWhile isJsWs).reverse := rfl
    rw [this, List.mem_reverse] at hb
    exact hb
  rcases dropWhile_suffix_decomp isJsWs (x.dropWhile isJsWs).reverse with ⟨pre, hpre⟩
  have h2 : b ∈ (x.dropWhile isJsWs).reverse := by
    rw [hpre]
    exact List.mem_append_right pre h1
  rw [List.mem_reverse] at h2
  rcases dropWhile_suffix_decomp isJsWs x with ⟨pre2, hpre2⟩
  rw [hpre2]
  exact List.mem_append_right pre2 h2

theorem jsTrim_append_eol {r : Record} (hne : r ≠ []) (hfix : jsTrim r = r) :
    jsTrim (r ++ [13, 10]) = r := by
  have h1 : headNotWs r := hfix ▸ (jsTrim_headNotWs r).1
  have h2 : headNotWs r.reverse := hfix ▸ (jsTrim_headNotWs r).2
  unfold jsTrim
  obtain ⟨c, t, hct⟩ : ∃ c t, r = c :: t := by
    cases r with
    | nil => exact absurd rfl hne
    | cons c t => exact ⟨c, t, rfl⟩
  have hd1 : (r ++ [13, 10]).dropWhile isJsWs = r ++ [13, 10] := by
    apply dropWhile_eq_self_of_head
    intro c' t' hct'
    rw [hct] at hct'
    simp only [List.cons_append] at hct'
    cases hct'
    exact h1 c t hct
  rw [hd1]
  have hrev : (r ++ [13, 10]).reverse = 10 :: 13 :: r.reverse := by
    rw [List.reverse_append]
    rfl
  rw [hrev]
  have hws10 : isJsWs 10 = true := by decide
  have hws13 : isJsWs 13 = true := by decide
  rw [List.dropWhile_cons, if_pos hws10, List.dropWhile_cons, if_pos hws13,
    dropWhile_eq_self_of_head h2, List.reverse_reverse]

theorem decodeAscii_id {l : List Nat} (h : ∀ b ∈ l, b < 128) : decodeAscii l = l := by
  unfold decodeAscii
  induction l with
  | nil => rfl
  | cons x xs ih =>
    rw [List.map_cons]
    have hx : x % 128 = x := Nat.mod_eq_of_lt (h x (List.mem_cons_self x xs))
    rw [hx, ih (fun b hb => h b (List.mem_cons_of_mem x hb))]

theorem decodeAscii_lt (l : List Nat) : ∀ b ∈ decodeAscii l, b < 128 := by
  intro b hb
  rcases List.mem_map.mp hb with ⟨a, _, ha⟩
  rw [← ha]
  exact Nat.mod_lt a (by omega)

theorem utf8DecodeGo_ascii :
    ∀ (fuel : Nat) (l : List Nat), (∀ b ∈ l, b < 128) → l.length ≤ fuel →
      utf8DecodeGo fuel l = l := by
  intro fuel
  induction fuel with
  | zero =>
    intro l h hlen
    rw [List.eq_nil_of_length_eq_zero (Nat.le_zero.mp hlen)]
    rfl
  | succ fuel ih =>
    intro l h hlen
    cases l with
    | nil => rfl
    | cons b bs =>
      have hb : b < 128 := h b (List.mem_cons_self _ _)
      have hlen2 : bs.length ≤ fuel := by
        rw [List.length_cons] at hlen
        omega
      simp only [utf8DecodeGo, if_pos hb]
      rw [ih bs (fun x hx => h x (List.mem_cons_of_mem _ hx)) hlen2]

theorem utf8Decode_ascii {l : List Nat} (h : ∀ b ∈ l, b < 128) : utf8Decode l = l :=
  utf8DecodeGo_ascii l.length l h (Nat.le_refl _)

theorem encodeRecord_ascii : ∀ (r : Record), (∀ b ∈ r, b < 128) → encodeRecord r = r := by
  intro r
  induction r with
  | nil => intro _; rfl
  | cons c cs ih =>
    intro h
    show c % 256 :: encodeRecord cs = c :: cs
    have hc : c < 128 := h c (List.mem_cons_self _ _)
    rw [Nat.mod_eq_of_lt (by omega), ih (fun x hx => h x (List.mem_cons_of_mem _ hx))]

theorem chunksExact_flatten {α : Type} (n : Nat) (hn : 0 < n) :
    ∀ (l : List α), (chunksExact n l).flatten = l := by
  have key : ∀ fuel (l : List α), l.length ≤ fuel → (chunksExact n l).flatten = l := by
    intro fuel
    induction fuel with
    | zero =>
      intro l h
      have : l = [] := List.eq_nil_of_length_eq_zero (Nat.le_zero.mp h)
      subst this
      rw [chunksExact_nil]
      rfl
    | succ fuel ih =>
      intro l h
      by_cases hl : l = []
      · subst hl
        rw [chunksExact_nil]
        rfl
      · rw [chunksExact_cons n l hn hl, List.flatten_cons]
        have hd : (l.drop n).length ≤ fuel := by
          rw [List.length_drop]
          have : 0 < l.length := List.length_pos.mpr hl
          omega
        rw [ih (l.drop n) hd, List.take_append_drop]
  intro l
  exact key l.length l (Nat.le_refl _)

theorem chunksExact_ne_nil {α : Type} (n : Nat) (hn : 0 < n) :
    ∀ (l : List α), ∀ ch ∈ chunksExact n l, ch ≠ [] := by
  have key : ∀ fuel (l : List α), l.length ≤ fuel → ∀ ch ∈ chunksExact n l, ch ≠ [] := by
    intro fuel
    induction fuel with
    | zero =>
      intro l h ch hch
      have : l = [] := List.eq_nil_of_length_eq_zero (Nat.le_zero.mp h)
      subst this
      rw [chunksExact_nil] at hch
      exact absurd hch (List.not_mem_nil ch)
    | succ fuel ih =>
      intro l h ch hch
      by_cases hl : l = []
      · subst hl
        rw [chunksExact_nil] at hch
        exact absurd hch (List.not_mem_nil ch)
      · rw [chunksExact_cons n l hn hl] at hch
        rcases List.mem_cons.mp hch with h1 | h2
        · subst h1
          intro htk
          rcases List.take_eq_nil_iff.mp htk with h3 | h3
          · omega
          · exact hl h3
        · have hd : (l.drop n).length ≤ fuel := by
            rw [List.length_drop]
            have : 0 < l.length := List.length_pos.mpr hl
            omega
          exact ih (l.drop n) hd ch h2
  intro l
  exact key l.length l (Nat.le_refl _)

theorem chunksExact_length_mul {α : Type} (W : Nat) (hW : 0 < W) :
    ∀ (l : List α), W ∣ l.length → (chunksExact W l).length * W = l.length := by
  have key : ∀ fuel (l : List α), l.length ≤ fuel → W ∣ l.length →
      (chunksExact W l).length * W = l.length := by
    intro fuel
    induction fuel with
    | zero =>
      intro l h _
      have : l = [] := List.eq_nil_of_length_eq_zero (Nat.le_zero.mp h)
      subst this
      rw [chunksExact_nil]
      simp
    | succ fuel ih =>
      intro l h hdvd
      by_cases hl : l = []
      · subst hl
        rw [chunksExact_nil]
        simp
      · rw [chunksExact_cons W l hW hl, List.length_cons]
        have hpos : 0 < l.length := List.length_pos.mpr hl
        have hWle : W ≤ l.length := Nat.le_of_dvd hpos hdvd
        have hd1 : (l.drop W).length ≤ fuel := by
          rw [List.length_drop]
          omega
        have hd2 : W ∣ (l.drop W).length := by
          rw [List.length_drop]
          exact Nat.dvd_sub' hdvd (Nat.dvd_refl W)
        have := ih (l.drop W) hd1 hd2
        rw [List.length_drop] at this
        have hgoal : ((chunksExact W (l.drop W)).length + 1) * W =
            (chunksExact W (l.drop W)).length * W + W := by ring
        rw [hgoal, this]
        omega
  intro l hdvd
  exact key l.length l (Nat.le_refl _) hdvd

theorem recordsOf_nil (W : Nat) : recordsOf W [] = [] := by
  unfold recordsOf
  rw [chunksExact_nil]
  rfl

theorem recordsOf_cons (W : Nat) (l : List Nat) (hW : 0 < W) (hl : l ≠ []) :
    recordsOf W l = jsTrim (decodeAscii (l.take W)) :: recordsOf W (l.drop W) := by
  unfold recordsOf
  rw [chunksExact_cons W l hW hl, List.map_cons]

theorem recordsOf_drop_mul (W : Nat) (hW : 0 < W) :
    ∀ m (l : List Nat), W ∣ l.length →
      recordsOf W (l.drop (m * W)) = (recordsOf W l).drop m := by
  intro m
  induction m with
  | zero => intro l _; simp
  | succ m ih =>
    intro l hdvd
    by_cases hl : l = []
    · subst hl
      simp [recordsOf_nil]
    · have hstep : l.drop ((m + 1) * W) = (l.drop W).drop (m * W) := by
        rw [List.drop_drop]
        congr 1
        ring
      have hd2 : W ∣ (l.drop W).length := by
        rw [List.length_drop]
        exact Nat.dvd_sub' hdvd (Nat.dvd_refl W)
      rw [hstep, ih (l.drop W) hd2, recordsOf_cons W l hW hl, List.drop_succ_cons]

theorem recordsOf_clean (cfg : Config) (file : List Nat)
    (hW : 2 < cfg.lineSizeBytes) (hdvd : cfg.lineSizeBytes ∣ file.length)
    (hchk : checkLineLengthAndCount cfg file = .ok ()) :
    ∀ r ∈ recordsOf cfg.lineSizeBytes file, cleanRecord cfg.lineSizeBytes r ∧ r ≠ [] := by
  intro r hr
  rcases List.mem_map.mp hr with ⟨w, hw, hwr⟩
  have hnobad : ¬ ∃ w ∈ chunksExact cfg.lineSizeBytes file,
      (jsTrim (decodeAscii w)).length + 2 ≠ cfg.lineSizeBytes := by
    intro hbad
    have h1 := (checkAux_spec cfg.lineSizeBytes cfg.numberOfLinesPerSegment (by omega)
      (file.length + 1) file (List.replicate cfg.lineSizeBytes 0) 0 (Nat.lt_succ_self _)
      hdvd (List.length_replicate _ _)).1.mpr hbad
    have hchk2 : checkAux cfg.lineSizeBytes cfg.numberOfLinesPerSegment (file.length + 1) file
        (List.replicate cfg.lineSizeBytes 0) 0 = .ok () := hchk
    rw [hchk2] at h1
    exact absurd h1 (by simp)
  push_neg at hnobad
  have hlen : (jsTrim (decodeAscii w)).length + 2 = cfg.lineSizeBytes := hnobad w hw
  subst hwr
  refine ⟨⟨by omega, jsTrim_idem (decodeAscii w), ?_⟩, ?_⟩
  · intro b hb
    exact decodeAscii_lt w b (jsTrim_mem hb)
  · intro hnil
    rw [hnil] at hlen
    simp at hlen
    omega

theorem readSegAux_spec (W : Nat) (hW : 0 < W) (file : List Nat) (hdvd : W ∣ file.length)
    (hascii : ∀ b ∈ file, b < 128) :
    ∀ count pos buffer, W ∣ pos → buffer.length = W →
      readSegAux W file count pos buffer = (recordsOf W (file.drop pos)).take count := by
  intro count
  induction count with
  | zero => intro pos buffer _ _; rfl
  | succ count ih =>
    intro pos buffer hpos hbuf
    have hunf : readSegAux W file (count + 1) pos buffer =
        (match (file.drop pos).take W with
         | [] => []
         | c :: cs =>
           jsTrim (utf8Decode ((c :: cs) ++ buffer.drop (c :: cs).length)) ::
             readSegAux W file count (pos + W) ((c :: cs) ++ buffer.drop (c :: cs).length)) := rfl
    rw [hunf]
    cases hchunk : (file.drop pos).take W with
    | nil =>
      rcases List.take_eq_nil_iff.mp hchunk with h1 | h1
      · exact absurd h1 (by omega)
      · rw [h1, recordsOf_nil]
        rfl
    | cons c cs =>
      have hrem : file.drop pos ≠ [] := by
        intro h
        rw [h] at hchunk
        simp at hchunk
      have hremlen : 0 < (file.drop pos).length := List.length_pos.mpr hrem
      have hdvdrem : W ∣ (file.drop pos).length := by
        rw [List.length_drop]
        exact Nat.dvd_sub' hdvd hpos
      have hWle : W ≤ (file.drop pos).length := Nat.le_of_dvd hremlen hdvdrem
      have hclen : (c :: cs).length = W := by
        rw [← hchunk, List.length_take]
        omega
      have hbufdrop : buffer.drop (c :: cs).length = [] :=
        List.drop_eq_nil_of_le (by rw [hbuf, hclen])
      show jsTrim (utf8Decode (c :: cs ++ buffer.drop (c :: cs).length)) ::
          readSegAux W file count (pos + W) (c :: cs ++ buffer.drop (c :: cs).length) = _
      rw [hbufdrop, List.append_nil]
      rw [recordsOf_cons W (file.drop pos) hW hrem, hchunk, List.take_succ_cons]
      have hcw : ∀ b ∈ (c :: cs), b < 128 := by
        intro b hb
        rw [← hchunk] at hb
        exact hascii b (List.mem_of_mem_drop (List.mem_of_mem_take hb))
      rw [utf8Decode_ascii hcw, decodeAscii_id hcw]
      congr 1
      have hdd : (file.drop pos).drop W = file.drop (pos + W) := List.drop_drop W pos file
      rw [hdd]
      exact ih (pos + W) (c :: cs) (Nat.dvd_add hpos (Nat.dvd_refl W)) hclen

theorem readSegment_spec (cfg : Config) (file : List Nat) (pos : Nat)
    (hW : 0 < cfg.lineSizeBytes) (hdvd : cfg.lineSizeBytes ∣ file.length)
    (hascii : ∀ b ∈ file, b < 128)
    (hpos : cfg.lineSizeBytes ∣ pos) :
    readSegment cfg file pos =
      (recordsOf cfg.lineSizeBytes (file.drop pos)).take cfg.numberOfLinesPerSegment := by
  unfold readSegment
  exact readSegAux_spec cfg.lineSizeBytes hW file hdvd hascii cfg.numberOfLinesPerSegment pos
    (List.replicate cfg.lineSizeBytes 0) hpos (List.length_replicate _ _)

theorem sortSegAux_content (cfg : Config) (inFilename : String) (file : List Nat)
    (hW : 0 < cfg.lineSizeBytes) (hn : 0 < cfg.numberOfLinesPerSegment)
    (hdvd : cfg.lineSizeBytes ∣ file.length) (hascii : ∀ b ∈ file, b < 128) :
    ∀ fuel pos c, file.length - pos < fuel → cfg.lineSizeBytes ∣ pos →
      (sortSegAux cfg inFilename file fuel pos c).map (fun s => s.2) =
        (chunksExact cfg.numberOfLinesPerSegment
            (recordsOf cfg.lineSizeBytes (file.drop pos))).map
          (fun ch => encodeRun (sortRecords ch)) := by
  intro fuel
  induction fuel with
  | zero => intro pos c hfuel _; omega
  | succ fuel ih =>
    intro pos c hfuel hpos
    have hread : readSegment cfg file pos =
        (recordsOf cfg.lineSizeBytes (file.drop pos)).take cfg.numberOfLinesPerSegment :=
      readSegment_spec cfg file pos hW hdvd hascii hpos
    have hunf : sortSegAux cfg inFilename file (fuel + 1) pos c =
        (match readSegment cfg file pos with
         | [] => []
         | _ :: _ =>
           (tempFilePath inFilename c, encodeRun (sortRecords (readSegment cfg file pos))) ::
             sortSegAux cfg inFilename file fuel
               (pos + (readSegment cfg file pos).length * cfg.lineSizeBytes) (c + 1)) := rfl
    cases hR : recordsOf cfg.lineSizeBytes (file.drop pos) with
    | nil =>
      have hread2 : readSegment cfg file pos = [] := by rw [hread, hR, List.take_nil]
      rw [hunf, hread2, chunksExact_nil]
      rfl
    | cons r rest =>
      obtain ⟨m, hm⟩ : ∃ m, cfg.numberOfLinesPerSegment = m + 1 := ⟨_, (Nat.succ_pred_eq_of_pos hn).symm⟩
      have hread3 : readSegment cfg file pos =
          r :: rest.take m := by
        rw [hread, hR, hm, List.take_succ_cons]
      rw [hunf, hread3]
      show List.map (fun s => s.2)
          ((tempFilePath inFilename c, encodeRun (sortRecords (r :: List.take m rest))) ::
            sortSegAux cfg inFilename file fuel
              (pos + (r :: List.take m rest).length * cfg.lineSizeBytes) (c + 1)) = _
      rw [List.map_cons, chunksExact_cons cfg.numberOfLinesPerSegment (r :: rest) hn (by simp),
        List.map_cons]
      have hhead2 : (r :: rest).take cfg.numberOfLinesPerSegment = r :: rest.take m := by
        rw [hm, List.take_succ_cons]
      rw [hhead2]
      congr 1
      have hlenlines : (r :: rest.take m).length =
          min cfg.numberOfLinesPerSegment (r :: rest).length := by
        simp only [List.length_cons, List.length_take, hm]
        omega
      have hposgt : pos < file.length := by
        by_contra hge
        have hnil : file.drop pos = [] := List.drop_eq_nil_of_le (by omega)
        rw [hnil, recordsOf_nil] at hR
        exact absurd hR (by simp)
      have hdvdrest : cfg.lineSizeBytes ∣ (file.drop pos).length := by
        rw [List.length_drop]
        exact Nat.dvd_sub' hdvd hpos
      by_cases hcase : cfg.numberOfLinesPerSegment ≤ (r :: rest).length
      · have hlen2 : (r :: rest.take m).length = cfg.numberOfLinesPerSegment := by
          rw [hlenlines]
          omega
        rw [hlen2]
        have hrec := ih (pos + cfg.numberOfLinesPerSegment * cfg.lineSizeBytes) (c + 1)
          (by
            have hlines1 : 0 < cfg.numberOfLinesPerSegment * cfg.lineSizeBytes :=
              Nat.mul_pos hn hW
            omega)
          (Nat.dvd_add hpos (Dvd.intro_left _ rfl))
        have hdroprec : file.drop (pos + cfg.numberOfLinesPerSegment * cfg.lineSizeBytes) =
            (file.drop pos).drop (cfg.numberOfLinesPerSegment * cfg.lineSizeBytes) :=
          (List.drop_drop _ _ _).symm
        rw [hrec, hdroprec, recordsOf_drop_mul cfg.lineSizeBytes hW
          cfg.numberOfLinesPerSegment (file.drop pos) hdvdrest, hR]
      · have hlen3 : (r :: rest.take m).length = (r :: rest).length := by
          rw [hlenlines]
          omega
        rw [hlen3]
        have hRlen : (r :: rest).length * cfg.lineSizeBytes = (file.drop pos).length := by
          rw [← hR]
          unfold recordsOf
          rw [List.length_map]
          exact chunksExact_length_mul cfg.lineSizeBytes hW (file.drop pos) hdvdrest
        have hdropall : file.drop (pos + (r :: rest).length * cfg.lineSizeBytes) = [] := by
          apply List.drop_eq_nil_of_le
          rw [List.length_drop] at hRlen
          omega
        have hrec := ih (pos + (r :: rest).length * cfg.lineSizeBytes) (c + 1)
          (by
            have hpos2 : 0 < (r :: rest).length * cfg.lineSizeBytes :=
              Nat.mul_pos (by simp) hW
            omega)
          (Nat.dvd_add hpos (Dvd.intro_left _ rfl))
        rw [hrec, hdropall, recordsOf_nil, chunksExact_nil]
        have hdropn : (r :: rest).drop cfg.numberOfLinesPerSegment = [] :=
          List.drop_eq_nil_of_le (by omega)
        rw [hdropn, chunksExact_nil]

theorem encodeRun_cons_of_ne (r : Record) (rs : List Record) (h : rs ≠ [])
    (ha : ∀ b ∈ r, b < 128) :
    encodeRun (r :: rs) = r ++ eolBytes ++ encodeRun rs := by
  cases rs with
  | nil => exact absurd rfl h
  | cons x xs =>
    show encodeRecord r ++ eolBytes ++ encodeRun (x :: xs) = r ++ eolBytes ++ encodeRun (x :: xs)
    rw [encodeRecord_ascii r ha]

theorem encodeRun_length {W : Nat} (hW2 : 2 ≤ W) :
    ∀ (rs : List Record), rs ≠ [] → (∀ r ∈ rs, r.length = W - 2 ∧ ∀ b ∈ r, b < 128) →
      (encodeRun rs).length = rs.length * W := by
  intro rs
  induction rs with
  | nil => intro h _; exact absurd rfl h
  | cons r rs ih =>
    intro _ hlen
    cases rs with
    | nil =>
      show (encodeRecord r ++ eolBytes).length = 1 * W
      rw [encodeRecord_ascii r (hlen r (List.mem_cons_self _ _)).2, List.length_append]
      have h1 : r.length = W - 2 := (hlen r (List.mem_cons_self _ _)).1
      show r.length + 2 = 1 * W
      omega
    | cons x xs =>
      rw [encodeRun_cons_of_ne r (x :: xs) (by simp) (hlen r (List.mem_cons_self _ _)).2]
      rw [List.append_assoc, List.length_append, List.length_append]
      have h1 : r.length = W - 2 := (hlen r (List.mem_cons_self _ _)).1
      have h2 := ih (by simp) (fun q hq => hlen q (List.mem_cons_of_mem r hq))
      rw [h2]
      show r.length + (2 + (x :: xs).length * W) = (x :: xs).length.succ * W
      rw [Nat.succ_mul]
      omega

theorem encodeRun_window {W : Nat} (hW2 : 2 ≤ W) :
    ∀ (rs : List Record), (∀ r ∈ rs, r.length = W - 2 ∧ ∀ b ∈ r, b < 128) →
      ∀ k, k < rs.length → ((encodeRun rs).drop (k * W)).take W = rs.getD k [] ++ eolBytes := by
  intro rs
  induction rs with
  | nil => intro _ k hk; simp at hk
  | cons r rs ih =>
    intro hlen k hk
    have hrW : (r ++ eolBytes).length = W := by
      rw [List.length_append]
      have h1 : r.length = W - 2 := (hlen r (List.mem_cons_self _ _)).1
      show r.length + 2 = W
      omega
    cases k with
    | zero =>
      rw [Nat.zero_mul, List.drop_zero, List.getD_cons_zero]
      cases rs with
      | nil =>
        show (encodeRecord r ++ eolBytes).take W = r ++ eolBytes
        rw [encodeRecord_ascii r (hlen r (List.mem_cons_self _ _)).2]
        exact List.take_of_length_le (le_of_eq hrW)
      | cons x xs =>
        rw [encodeRun_cons_of_ne r (x :: xs) (by simp) (hlen r (List.mem_cons_self _ _)).2]
        exact List.take_left' hrW
    | succ k =>
      have hrs : rs ≠ [] := by
        intro hnil
        rw [hnil] at hk
        simp at hk
      rw [encodeRun_cons_of_ne r rs hrs (hlen r (List.mem_cons_self _ _)).2,
        List.getD_cons_succ]
      have hsplit : (k + 1) * W = W + k * W := by ring
      rw [hsplit]
      have hdd : (r ++ eolBytes ++ encodeRun rs).drop (W + k * W) =
          ((r ++ eolBytes ++ encodeRun rs).drop W).drop (k * W) :=
        (List.drop_drop _ _ _).symm
      rw [hdd, List.drop_left' hrW]
      exact ih (fun q hq => hlen q (List.mem_cons_of_mem r hq)) k
        (by rw [List.length_cons] at hk; omega)

theorem clean_decode_trim {W : Nat} (hW : 2 < W) {r : Record}
    (hc : cleanRecord W r) :
    jsTrim (decodeAscii (r ++ eolBytes)) = r := by
  have hne : r ≠ [] := by
    intro hnil
    have := hc.1
    rw [hnil] at this
    simp at this
    omega
  have hdec : decodeAscii (r ++ eolBytes) = r ++ eolBytes := by
    apply decodeAscii_id
    intro b hb
    rcases List.mem_append.mp hb with h1 | h1
    · exact hc.2.2 b h1
    · have hb2 : b = 13 ∨ b = 10 := by simpa [eolBytes] using h1
      omega
  rw [hdec]
  exact jsTrim_append_eol hne hc.2.1

theorem goodRun_record {W : Nat} {rs : List Record} (hg : goodRun W rs) {k : Nat}
    (hk : k < rs.length) : cleanRecord W (rs.getD k []) ∧ jsLtB (rs.getD k []) maxAsciiChar = true := by
  have hmem : rs.getD k [] ∈ rs := by
    rw [List.getD_eq_getElem rs [] hk]
    exact List.getElem_mem hk
  exact hg.2 _ hmem

theorem initCursor_encodeRun {W : Nat} (hW : 2 < W) {rs : List Record} (hg : goodRun W rs) :
    initCursor W (encodeRun rs) =
      { run := encodeRun rs, pos := W, line := rs.getD 0 [] } := by
  have hlen0 : 0 < rs.length := List.length_pos.mpr hg.1
  have hclean0 := goodRun_record hg hlen0
  have hwin : ((encodeRun rs).drop (0 * W)).take W = rs.getD 0 [] ++ eolBytes :=
    encodeRun_window (by omega) rs (fun r hr => ⟨((hg.2 r hr).1).1, ((hg.2 r hr).1).2.2⟩) 0 hlen0
  rw [Nat.zero_mul, List.drop_zero] at hwin
  unfold initCursor
  rw [hwin]
  have hwlen : (rs.getD 0 [] ++ eolBytes).length = W := by
    rw [List.length_append]
    have h1 : (rs.getD 0 []).length = W - 2 := hclean0.1.1
    show (rs.getD 0 []).length + 2 = W
    omega
  show (⟨encodeRun rs, W, jsTrim (decodeAscii ((rs.getD 0 [] ++ eolBytes) ++
      List.replicate (W - (rs.getD 0 [] ++ eolBytes).length) 0))⟩ : MergeCursor) = _
  rw [hwlen, Nat.sub_self, List.replicate_zero, List.append_nil]
  rw [clean_decode_trim hW hclean0.1]

theorem readNextLine_encodeRun_mid {W : Nat} (hW : 2 < W) {rs : List Record} (hg : goodRun W rs)
    {k : Nat} (hk : k < rs.length) (line : Record) :
    readNextLine W { run := encodeRun rs, pos := k * W, line := line } =
      { run := encodeRun rs, pos := (k + 1) * W, line := rs.getD k [] } := by
  have hclean := goodRun_record hg hk
  have hwin : ((encodeRun rs).drop (k * W)).take W = rs.getD k [] ++ eolBytes :=
    encodeRun_window (by omega) rs (fun r hr => ⟨((hg.2 r hr).1).1, ((hg.2 r hr).1).2.2⟩) k hk
  unfold readNextLine
  simp only [hwin]
  obtain ⟨c, cs, hcons⟩ : ∃ c cs, rs.getD k [] ++ eolBytes = c :: cs := by
    cases hx : rs.getD k [] ++ eolBytes with
    | nil =>
      have := congrArg List.length hx
      rw [List.length_append] at this
      simp [eolBytes] at this
    | cons c cs => exact ⟨c, cs, rfl⟩
  rw [hcons]
  have hclen : (c :: cs).length = W := by
    rw [← hcons, List.length_append]
    have h1 : (rs.getD k []).length = W - 2 := hclean.1.1
    show (rs.getD k []).length + 2 = W
    omega
  have hrep : List.replicate (W - (c :: cs).length) 0 = ([] : List Nat) := by
    rw [hclen, Nat.sub_self, List.replicate_zero]
  show (⟨encodeRun rs, k * W + W, jsTrim (decodeAscii ((c :: cs) ++
      List.replicate (W - (c :: cs).length) 0))⟩ : MergeCursor) = _
  rw [hrep, List.append_nil, ← hcons, clean_decode_trim hW hclean.1]
  have hpos : k * W + W = (k + 1) * W := by ring
  rw [hpos]

theorem readNextLine_encodeRun_end {W : Nat} (hW : 2 < W) {rs : List Record} (hg : goodRun W rs)
    {k : Nat} (hk : rs.length ≤ k) (line : Record) :
    readNextLine W { run := encodeRun rs, pos := k * W, line := line } =
      { run := encodeRun rs, pos := k * W + W, line := [] } := by
  have hlen : (encodeRun rs).length = rs.length * W :=
    encodeRun_length (by omega) rs hg.1 (fun r hr => ⟨((hg.2 r hr).1).1, ((hg.2 r hr).1).2.2⟩)
  have hdrop : (encodeRun rs).drop (k * W) = [] := by
    apply List.drop_eq_nil_of_le
    rw [hlen]
    exact Nat.mul_le_mul_right W hk
  unfold readNextLine
  simp only [hdrop, List.take_nil]

theorem forall₂_get {R : MergeCursor → List Record → Prop} :
    ∀ {cs : List MergeCursor} {rems : List (List Record)}, List.Forall₂ R cs rems →
      ∀ i (h1 : i < cs.length) (h2 : i < rems.length),
        R (cs.get ⟨i, h1⟩) (rems.get ⟨i, h2⟩) := by
  intro cs
  induction cs with
  | nil => intro rems h i h1; simp at h1
  | cons c cs ih =>
    intro rems h i h1 h2
    cases rems with
    | nil => simp at h2
    | cons rem rems =>
      rcases List.forall₂_cons.mp h with ⟨hcr, hrest⟩
      cases i with
      | zero => exact hcr
      | succ i =>
        exact ih hrest i (Nat.lt_of_succ_lt_succ h1) (Nat.lt_of_succ_lt_succ h2)

theorem forall₂_set {R : MergeCursor → List Record → Prop} :
    ∀ {cs : List MergeCursor} {rems : List (List Record)}, List.Forall₂ R cs rems →
      ∀ {c rem} i, R c rem → List.Forall₂ R (cs.set i c) (rems.set i rem) := by
  intro cs
  induction cs with
  | nil =>
    intro rems h c rem i hcr
    cases h
    simp
  | cons c0 cs ih =>
    intro rems h c rem i hcr
    cases rems with
    | nil => exact absurd (List.Forall₂.length_eq h) (by simp)
    | cons rem0 rems =>
      rcases List.forall₂_cons.mp h with ⟨h0, hrest⟩
      cases i with
      | zero =>
        rw [List.set_cons_zero, List.set_cons_zero]
        exact List.forall₂_cons.mpr ⟨hcr, hrest⟩
      | succ i =>
        rw [List.set_cons_succ, List.set_cons_succ]
        exact List.forall₂_cons.mpr ⟨h0, ih hrest i hcr⟩

theorem sum_length_set :
    ∀ (rems : List (List Record)) (i : Nat) (h : i < rems.length) (x : List Record),
      ((rems.set i x).map List.length).sum + (rems.get ⟨i, h⟩).length =
        (rems.map List.length).sum + x.length := by
  intro rems
  induction rems with
  | nil => intro i h; simp at h
  | cons rem rems ih =>
    intro i h x
    cases i with
    | zero =>
      rw [List.set_cons_zero]
      simp only [List.map_cons, List.sum_cons, List.get]
      omega
    | succ i =>
      rw [List.set_cons_succ]
      simp only [List.map_cons, List.sum_cons, List.get]
      have := ih i (by simpa using Nat.lt_of_succ_lt_succ h) x
      omega

theorem flatten_set_perm :
    ∀ (rems : List (List Record)) (i : Nat) (h : i < rems.length) (a : Record)
      (t : List Record), rems.get ⟨i, h⟩ = a :: t →
      List.Perm rems.flatten (a :: (rems.set i t).flatten) := by
  intro rems
  induction rems with
  | nil => intro i h; simp at h
  | cons rem rems ih =>
    intro i h a t hget
    cases i with
    | zero =>
      rw [List.set_cons_zero]
      have : rem = a :: t := hget
      subst this
      rw [List.flatten_cons, List.flatten_cons]
      exact List.Perm.refl _
    | succ i =>
      rw [List.set_cons_succ]
      rw [List.flatten_cons, List.flatten_cons]
      have hi : i < rems.length := by simpa using Nat.lt_of_succ_lt_succ h
      have hrec := ih i hi a t hget
      have h1 : (rem ++ rems.flatten).Perm (rem ++ (a :: (rems.set i t).flatten)) :=
        List.Perm.append_left rem hrec
      have h2 : (rem ++ (a :: (rems.set i t).flatten)).Perm
          (a :: (rem ++ (rems.set i t).flatten)) := List.perm_middle
      exact h1.trans h2

theorem flatten_eq_nil_of_all :
    ∀ (rems : List (List Record)), (∀ rem ∈ rems, rem = []) → rems.flatten = [] := by
  intro rems
  induction rems with
  | nil => intro _; rfl
  | cons rem rems ih =>
    intro h
    rw [List.flatten_cons, h rem (List.mem_cons_self _ _), List.nil_append]
    exact ih (fun r hr => h r (List.mem_cons_of_mem rem hr))

theorem mergeInv_line_nil {W : Nat} (hW : 2 < W) {c : MergeCursor} {rem : List Record}
    (hinv : MergeInv W c rem) (hline : c.line = []) : rem = [] := by
  rcases hinv with ⟨rs, k, hg, _, hk1, _, hbr⟩
  rcases hbr with ⟨hkle, hline2, _⟩ | ⟨_, _, hrem⟩
  · exfalso
    have hklt : k - 1 < rs.length := by omega
    have hclean := (goodRun_record hg hklt).1
    have hlen := hclean.1
    rw [← hline2, hline] at hlen
    simp at hlen
    omega
  · exact hrem

theorem mergeLoop_perm (W : Nat) (hW : 2 < W) :
    ∀ fuel (cs : List MergeCursor) (rems : List (List Record)) (out : List Record),
      List.Forall₂ (MergeInv W) cs rems →
      (rems.map List.length).sum < fuel →
      ∃ ws, mergeLoop W fuel cs out = (out ++ ws, .ok ()) ∧ ws.Perm rems.flatten := by
  intro fuel
  induction fuel with
  | zero => intro cs rems out _ hm; omega
  | succ fuel ih =>
    intro cs rems out hinv hm
    have hlencs : cs.length = rems.length := List.Forall₂.length_eq hinv
    by_cases hall : ((cs.map (fun c => c.line)).all (fun l => l.isEmpty)) = true
    · have hstep : mergeLoop W (fuel + 1) cs out = (out, .ok ()) := by
        show (if (cs.map (fun c => c.line)).all (fun l => l.isEmpty) then (out, Except.ok ())
          else _) = (out, Except.ok ())
        rw [if_pos hall]
      refine ⟨[], by rw [hstep, List.append_nil], ?_⟩
      have hrems : ∀ rem ∈ rems, rem = [] := by
        intro rem hrem
        rcases List.mem_iff_get.mp hrem with ⟨⟨j, hj⟩, hget⟩
        have hjcs : j < cs.length := by omega
        have hinvj := forall₂_get hinv j hjcs hj
        have hlinej : (cs.get ⟨j, hjcs⟩).line = [] := by
          have hmem : (cs.get ⟨j, hjcs⟩).line ∈ cs.map (fun c => c.line) :=
            List.mem_map_of_mem (fun c => c.line) (List.get_mem cs j hjcs)
          have := List.all_eq_true.mp hall _ hmem
          exact List.isEmpty_iff.mp this
        rw [← hget]
        exact mergeInv_line_nil hW hinvj hlinej
      rw [flatten_eq_nil_of_all rems hrems]
    · -- some buffer is live: a record is selected and written
      have hex : ∃ c0 ∈ cs, c0.line ≠ [] := by
        by_contra hno
        push_neg at hno
        apply hall
        apply List.all_eq_true.mpr
        intro x hx
        rcases List.mem_map.mp hx with ⟨c0, hc0, hcx⟩
        rw [← hcx]
        exact List.isEmpty_iff.mpr (hno c0 hc0)
      rcases hex with ⟨c0, hc0, hc0ne⟩
      -- the live buffer holds a record strictly below the sentinel
      rcases List.mem_iff_get.mp hc0 with ⟨⟨j, hj⟩, hgetj⟩
      have hjr : j < rems.length := by omega
      have hinvj := forall₂_get hinv j hj hjr
      have hc0lt : jsLtB c0.line maxAsciiChar = true := by
        rcases hinvj with ⟨rs, k, hg, _, hk1, _, hbr⟩
        rcases hbr with ⟨hkle, hline2, _⟩ | ⟨_, hline2, _⟩
        · have hklt : k - 1 < rs.length := by omega
          have := (goodRun_record hg hklt).2
          rw [hgetj] at hline2
          rw [hline2]
          exact this
        · rw [hgetj] at hline2
          exact absurd hline2 hc0ne
      have hc0mem : c0.line ∈ cs.map (fun c => c.line) := by
        rw [← hgetj]
        exact List.mem_map_of_mem (fun c => c.line) (List.get_mem cs j hj)
      have hfoldmem : (cs.map (fun c => c.line)).foldl minLineStep maxAsciiChar ∈
          cs.map (fun c => c.line) :=
        minLineFold_mem_of_le_sentinel hc0mem hc0ne (jsLtB_asymm hc0lt)
      have hfoldne : (cs.map (fun c => c.line)).foldl minLineStep maxAsciiChar ≠ [] :=
        minLineFold_ne_nil maxAsciiChar _ (by simp [maxAsciiChar])
      rcases jsIndexOf_mem _ _ hfoldmem with ⟨i, hidx, hilen, hgeti, _⟩
      have hics : i < cs.length := by
        rw [List.length_map] at hilen
        exact hilen
      have hirems : i < rems.length := by omega
      -- the selected cursor and its invariant
      have hinvi := forall₂_get hinv i hics hirems
      have hlinei : (cs.get ⟨i, hics⟩).line =
          (cs.map (fun c => c.line)).foldl minLineStep maxAsciiChar := by
        rw [← hgeti]
        simp only [List.get_eq_getElem, List.getElem_map]
      rcases hinvi with ⟨rs, k, hg, hrun, hk1, hpos, hbr⟩
      have hbr1 : k ≤ rs.length ∧ (cs.get ⟨i, hics⟩).line = rs.getD (k - 1) [] ∧
          rems.get ⟨i, hirems⟩ = rs.drop (k - 1) := by
        rcases hbr with h | ⟨_, hline2, _⟩
        · exact h
        · rw [hlinei] at hline2
          exact absurd hline2 hfoldne
      rcases hbr1 with ⟨hkle, hlinerec, hremi⟩
      have hk1lt : k - 1 < rs.length := by omega
      -- the advanced cursor
      have hceta : cs.get ⟨i, hics⟩ =
          { run := encodeRun rs, pos := k * W, line := (cs.get ⟨i, hics⟩).line } := by
        rcases hcget : cs.get ⟨i, hics⟩ with ⟨crun, cpos, cline⟩
        rw [hcget] at hrun hpos
        simp only at hrun hpos
        rw [hrun, hpos]
      have hadv : (k < rs.length ∧ readNextLine W (cs.get ⟨i, hics⟩) =
            { run := encodeRun rs, pos := (k + 1) * W, line := rs.getD k [] }) ∨
          (k = rs.length ∧ readNextLine W (cs.get ⟨i, hics⟩) =
            { run := encodeRun rs, pos := (k + 1) * W, line := [] }) := by
        by_cases hklt : k < rs.length
        · left
          refine ⟨hklt, ?_⟩
          rw [hceta]
          exact readNextLine_encodeRun_mid hW hg hklt _
        · right
          have hkeq : k = rs.length := by omega
          refine ⟨hkeq, ?_⟩
          rw [hceta]
          have hend := readNextLine_encodeRun_end hW hg (le_of_eq hkeq.symm)
            ((cs.get ⟨i, hics⟩).line)
          rw [hend]
          have harith : k * W + W = (k + 1) * W := by ring
          rw [harith]
      -- the new remainder for the selected run
      have hreminew : rems.get ⟨i, hirems⟩ =
          ((cs.map (fun c => c.line)).foldl minLineStep maxAsciiChar) :: rs.drop k := by
        rw [hremi, List.drop_eq_getElem_cons hk1lt]
        have h1 : k - 1 + 1 = k := by omega
        rw [h1]
        congr 1
        rw [← hlinei, hlinerec]
        exact (List.getD_eq_getElem rs [] hk1lt).symm
      have hinvnew : MergeInv W (readNextLine W (cs.get ⟨i, hics⟩)) (rs.drop k) := by
        rcases hadv with ⟨hklt, hmid⟩ | ⟨hkeq, hend⟩
        · refine ⟨rs, k + 1, hg, by rw [hmid], by omega, by rw [hmid], Or.inl ?_⟩
          refine ⟨by omega, by rw [hmid]; simp, ?_⟩
          have h2 : k + 1 - 1 = k := by omega
          rw [h2]
        · refine ⟨rs, k + 1, hg, by rw [hend], by omega, by rw [hend], Or.inr ?_⟩
          refine ⟨by omega, by rw [hend], ?_⟩
          rw [hkeq, List.drop_length]
      -- one loop iteration is taken and the induction hypothesis applies
      have hinv2 : List.Forall₂ (MergeInv W)
          (cs.set i (readNextLine W (cs.get ⟨i, hics⟩))) (rems.set i (rs.drop k)) :=
        forall₂_set hinv i hinvnew
      have hmeas := sum_length_set rems i hirems (rs.drop k)
      rw [hreminew] at hmeas
      have hmeas2 : ((rems.set i (rs.drop k)).map List.length).sum < fuel := by
        rw [List.length_cons] at hmeas
        omega
      rcases ih (cs.set i (readNextLine W (cs.get ⟨i, hics⟩))) (rems.set i (rs.drop k))
        (out ++ [(cs.map (fun c => c.line)).foldl minLineStep maxAsciiChar]) hinv2 hmeas2
        with ⟨ws', hws', hperm'⟩
      refine ⟨(cs.map (fun c => c.line)).foldl minLineStep maxAsciiChar :: ws', ?_, ?_⟩
      · have hunf : mergeLoop W (fuel + 1) cs out =
            (if (cs.map (fun c => c.line)).all (fun l => l.isEmpty) then (out, Except.ok ())
             else
               match (findMinLine (cs.map (fun c => c.line))).2 with
               | Int.negSucc _ => (out ++ [(findMinLine (cs.map (fun c => c.line))).1],
                   Except.error SortError.invalidMergeIndex)
               | Int.ofNat i2 =>
                 if h : i2 < cs.length then
                   mergeLoop W fuel (cs.set i2 (readNextLine W (cs.get ⟨i2, h⟩)))
                     (out ++ [(findMinLine (cs.map (fun c => c.line))).1])
                 else (out ++ [(findMinLine (cs.map (fun c => c.line))).1],
                   Except.error SortError.invalidMergeIndex)) := rfl
        rw [hunf, if_neg hall]
        have hfm2 : (findMinLine (cs.map (fun c => c.line))).2 = Int.ofNat i := hidx
        rw [hfm2]
        show (if h : i < cs.length then
            mergeLoop W fuel (cs.set i (readNextLine W (cs.get ⟨i, h⟩)))
              (out ++ [(findMinLine (cs.map (fun c => c.line))).1])
          else (out ++ [(findMinLine (cs.map (fun c => c.line))).1],
            Except.error SortError.invalidMergeIndex)) = _
        rw [dif_pos hics]
        show mergeLoop W fuel (cs.set i (readNextLine W (cs.get ⟨i, hics⟩)))
            (out ++ [(cs.map (fun c => c.line)).foldl minLineStep maxAsciiChar]) = _
        rw [hws', List.append_assoc]
        rfl
      · have hflat := flatten_set_perm rems i hirems _ _ hreminew
        exact (hperm'.cons _).trans hflat.symm

theorem mergeInv_init {W : Nat} (hW : 2 < W) {ch : List Record} (hg : goodRun W ch) :
    MergeInv W (initCursor W (encodeRun ch)) ch := by
  rw [initCursor_encodeRun hW hg]
  refine ⟨ch, 1, hg, rfl, Nat.le_refl 1, (Nat.one_mul W).symm, Or.inl ?_⟩
  refine ⟨List.length_pos.mpr hg.1, rfl, ?_⟩
  rw [Nat.sub_self, List.drop_zero]

theorem forall₂_init {W : Nat} (hW : 2 < W) :
    ∀ (chunks : List (List Record)), (∀ ch ∈ chunks, goodRun W ch) →
      List.Forall₂ (MergeInv W) (chunks.map (fun ch => initCursor W (encodeRun ch))) chunks := by
  intro chunks
  induction chunks with
  | nil => intro _; simp
  | cons ch chunks ih =>
    intro hgood
    rw [List.map_cons]
    exact List.forall₂_cons.mpr
      ⟨mergeInv_init hW (hgood ch (List.mem_cons_self _ _)),
       ih (fun c hc => hgood c (List.mem_cons_of_mem ch hc))⟩

theorem performMerge_perm (W : Nat) (hW : 2 < W) (chunks : List (List Record))
    (hgood : ∀ ch ∈ chunks, goodRun W ch) :
    ∃ ws, performMerge W (chunks.map encodeRun) = (ws, .ok ()) ∧ ws.Perm chunks.flatten := by
  unfold performMerge
  have hmm : (chunks.map encodeRun).map (initCursor W) =
      chunks.map (fun ch => initCursor W (encodeRun ch)) := by
    rw [List.map_map]
    rfl
  have hinv := forall₂_init hW chunks hgood
  have hfuel : (chunks.map List.length).sum < mergeFuel (chunks.map encodeRun) := by
    unfold mergeFuel
    rw [List.map_map]
    have h1 : (chunks.map List.length).sum ≤
        (chunks.map (fun ch => (encodeRun ch).length + 1)).sum := by
      apply List.sum_le_sum
      intro ch hch
      have hg := hgood ch hch
      have hlen := encodeRun_length (by omega : 2 ≤ W) ch hg.1
        (fun r hr => ⟨((hg.2 r hr).1).1, ((hg.2 r hr).1).2.2⟩)
      rw [hlen]
      have h2 : ch.length ≤ ch.length * W := Nat.le_mul_of_pos_right _ (by omega)
      omega
    have h3 : ((fun r => r.length + 1) ∘ encodeRun) = fun ch => (encodeRun ch).length + 1 := rfl
    rw [h3]
    omega
  rcases mergeLoop_perm W hW (mergeFuel (chunks.map encodeRun))
    ((chunks.map encodeRun).map (initCursor W)) chunks [] (hmm ▸ hinv) hfuel
    with ⟨ws, hws, hperm⟩
  refine ⟨ws, ?_, hperm⟩
  rw [hws]
  rfl

theorem digitChar_toNat_sub (m : Nat) (hm : m < 10) : (Nat.digitChar m).toNat - 48 = m := by
  interval_cases m <;> rfl

theorem toDigitsCore_val :
    ∀ fuel (n : Nat) (rest : List Char), n < fuel →
      digitsVal (Nat.toDigitsCore 10 fuel n rest) = n * 10 ^ rest.length + digitsVal rest := by
  intro fuel
  induction fuel with
  | zero => intro n rest h; omega
  | succ fuel ih =>
    intro n rest h
    show digitsVal (if n / 10 = 0 then (n % 10).digitChar :: rest
      else Nat.toDigitsCore 10 fuel (n / 10) ((n % 10).digitChar :: rest)) = _
    by_cases hdiv : n / 10 = 0
    · rw [if_pos hdiv]
      show ((n % 10).digitChar.toNat - 48) * 10 ^ rest.length + digitsVal rest = _
      rw [digitChar_toNat_sub (n % 10) (Nat.mod_lt _ (by omega))]
      have hn10 : n < 10 := by omega
      rw [Nat.mod_eq_of_lt hn10]
    · rw [if_neg hdiv]
      have hna : n / 10 < fuel := by omega
      rw [ih (n / 10) ((n % 10).digitChar :: rest) hna]
      show n / 10 * 10 ^ (rest.length + 1) +
        (((n % 10).digitChar.toNat - 48) * 10 ^ rest.length + digitsVal rest) = _
      rw [digitChar_toNat_sub (n % 10) (Nat.mod_lt _ (by omega))]
      have hmod := Nat.div_add_mod n 10
      rw [pow_succ]
      have hring : n / 10 * (10 ^ rest.length * 10) +
          (n % 10 * 10 ^ rest.length + digitsVal rest) =
          (10 * (n / 10) + n % 10) * 10 ^ rest.length + digitsVal rest := by ring
      rw [hring, hmod]

theorem toString_nat_injective {m n : Nat} (h : toString m = toString n) : m = n := by
  have hdig : Nat.toDigits 10 m = Nat.toDigits 10 n := by
    have h2 : (Nat.toDigits 10 m).asString = (Nat.toDigits 10 n).asString := h
    have h3 := congrArg String.data h2
    exact h3
  have hm : digitsVal (Nat.toDigits 10 m) = m * 10 ^ (0 : Nat) + digitsVal [] :=
    toDigitsCore_val (m + 1) m [] (Nat.lt_succ_self m)
  have hn : digitsVal (Nat.toDigits 10 n) = n * 10 ^ (0 : Nat) + digitsVal [] :=
    toDigitsCore_val (n + 1) n [] (Nat.lt_succ_self n)
  rw [hdig, hn] at hm
  have := hm.symm
  simpa using this

theorem tempFilePath_inj (inFilename : String) {i j : Nat}
    (h : tempFilePath inFilename i = tempFilePath inFilename j) : i = j := by
  unfold tempFilePath at h
  have hd := congrArg String.data h
  simp only [String.data_append, List.append_assoc] at hd
  have hd2 := List.append_cancel_left (List.append_cancel_left hd)
  have hd3 := List.append_cancel_right hd2
  have hstr : toString i = toString j := by
    have h1 : (toString i).data = (toString j).data := hd3
    cases hti : toString i
    cases htj : toString j
    rw [hti, htj] at h1
    simp only at h1
    rw [h1]
  exact toString_nat_injective hstr

theorem sortSegments_names_nodup (cfg : Config) (inFilename : String) (file : List Nat) :
    ((sortSegments cfg inFilename file).map (fun s => s.1)).Nodup := by
  unfold sortSegments
  rw [sortSegAux_names cfg inFilename file (file.length + 1) 0 0]
  apply List.Nodup.map
  · intro a b hab
    exact tempFilePath_inj inFilename hab
  · exact List.nodup_range' _ _

theorem foldl_write_preserve (segs : List (String × List Nat)) :
    ∀ (g : String → Option (List Nat)) (nm : String), nm ∉ segs.map (fun s => s.1) →
      (segs.foldl (fun f seg => fun p => if p = seg.1 then some seg.2 else f p) g) nm = g nm := by
  induction segs with
  | nil => intro g nm _; rfl
  | cons seg segs ih =>
    intro g nm hnm
    rw [List.foldl_cons]
    have hne : nm ≠ seg.1 := by
      intro he
      exact hnm (by rw [he, List.map_cons]; exact List.mem_cons_self _ _)
    have hrest : nm ∉ segs.map (fun s => s.1) := by
      intro hmem
      exact hnm (by rw [List.map_cons]; exact List.mem_cons_of_mem _ hmem)
    rw [ih _ nm hrest]
    simp [hne]

theorem foldl_write_lookup (segs : List (String × List Nat)) :
    ∀ (g : String → Option (List Nat)), (segs.map (fun s => s.1)).Nodup →
      ∀ s ∈ segs,
        (segs.foldl (fun f seg => fun p => if p = seg.1 then some seg.2 else f p) g) s.1 =
          some s.2 := by
  induction segs with
  | nil => intro g _ s hs; exact absurd hs (List.not_mem_nil s)
  | cons seg segs ih =>
    intro g hnd s hs
    rw [List.map_cons] at hnd
    rcases List.nodup_cons.mp hnd with ⟨hnotin, hnd2⟩
    rw [List.foldl_cons]
    rcases List.mem_cons.mp hs with h1 | h2
    · subst h1
      rw [foldl_write_preserve segs _ s.1 hnotin]
      simp
    · exact ih _ hnd2 s h2

theorem validateInput_ok_check (cfg : Config) (fs : FS) (inFilename outFilename : String)
    (h : validateInput cfg fs inFilename outFilename = .ok ()) :
    checkLineLengthAndCount cfg ((fs.files inFilename).getD []) = .ok () := by
  unfold validateInput at h
  cases h1 : checkFileExists fs inFilename with
  | error e => rw [h1] at h; exact absurd h (by simp)
  | ok u =>
    rw [h1] at h
    cases h2 : checkFileSizeLimit cfg fs inFilename with
    | error e => rw [h2] at h; exact absurd h (by simp)
    | ok u2 =>
      rw [h2] at h
      cases h3 : checkLineLengthAndCount cfg ((fs.files inFilename).getD []) with
      | error e => rw [h3] at h; exact absurd h (by simp)
      | ok u3 => rfl

theorem flatten_map_sort_perm :
    ∀ (L : List (List Record)), ((L.map sortRecords).flatten).Perm L.flatten := by
  intro L
  induction L with
  | nil => exact List.Perm.refl _
  | cons ch L ih =>
    rw [List.map_cons, List.flatten_cons, List.flatten_cons]
    exact List.Perm.append (sortRecords_perm ch) ih

theorem sortSegments_content (cfg : Config) (inFilename : String) (file : List Nat)
    (hW : 0 < cfg.lineSizeBytes) (hn : 0 < cfg.numberOfLinesPerSegment)
    (hdvd : cfg.lineSizeBytes ∣ file.length) (hascii : ∀ b ∈ file, b < 128) :
    (sortSegments cfg inFilename file).map (fun s => s.2) =
      ((chunksExact cfg.numberOfLinesPerSegment
          (recordsOf cfg.lineSizeBytes file)).map sortRecords).map encodeRun := by
  unfold sortSegments
  rw [sortSegAux_content cfg inFilename file hW hn hdvd hascii (file.length + 1) 0 0
    (Nat.lt_succ_of_le (Nat.sub_le _ _)) (Nat.dvd_zero _), List.drop_zero, List.map_map]
  rfl

theorem mergeSegments_eval (cfg : Config) (segments : List String) (outFilename : String)
    (fs : FS) :
    mergeSegments cfg segments outFilename fs =
      ({ files := fun p => if p ∈ segments then none
           else if p = outFilename then some (encodeOut cfg.lineSizeBytes
             (performMerge cfg.lineSizeBytes
               (segments.map (fun s => (fs.files s).getD []))).1)
           else fs.files p,
         handles := dropHandle (segments.foldl dropHandle
           (bumpHandle (segments.foldl bumpHandle fs.handles) outFilename)) outFilename },
       (performMerge cfg.lineSizeBytes
         (segments.map (fun s => (fs.files s).getD []))).2) := rfl

/-- C2 (amended): for a valid input consisting of 7-bit ASCII bytes whose
records all carry their two-byte terminator (the byte length is a multiple
of `recordWidth`), whose `recordWidth` is at least 3 (nonempty payloads) and
whose records are all lexicographically below the `MAX_ASCII_CHAR` sentinel,
the sequence of records written by the merge is a permutation of the input's
records — every record written exactly once — the merge and the whole `Sort`
call succeed, and (provided the output path is not one of the temporary run
paths) the output file holds exactly those records.  The sentinel
restriction is forced by the counterexample: a validated record at or above
`"\x7f"` derails `findMinLine` and the output is not a permutation of the
input.  The ASCII restriction keeps the segment phase's UTF-8 read decode,
the `"ascii"` write encoding and the merge phase's `"ascii"` read decode in
agreement, matching the file format the validator's ASCII-masked check is
written for. -/
theorem claim2_amended_permutation (cfg : Config) (fs : FS)
    (inFilename outFilename : String) (file : List Nat)
    (hfile : fs.files inFilename = some file)
    (hval : validateInput cfg fs inFilename outFilename = .ok ())
    (hW : 2 < cfg.lineSizeBytes)
    (hdvd : cfg.lineSizeBytes ∣ file.length)
    (hascii : ∀ b ∈ file, b < 128)
    (hbelow : ∀ r ∈ recordsOf cfg.lineSizeBytes file, jsLtB r maxAsciiChar = true) :
    (mergedOutput cfg inFilename file).2 = .ok () ∧
    List.Perm (mergedOutput cfg inFilename file).1 (recordsOf cfg.lineSizeBytes file) ∧
    (Sort' cfg inFilename outFilename fs).2 = .ok () ∧
    (outFilename ∉ (sortSegments cfg inFilename file).map (fun s => s.1) →
      (Sort' cfg inFilename outFilename fs).1.files outFilename =
        some (encodeOut cfg.lineSizeBytes (mergedOutput cfg inFilename file).1)) := by
  have hWpos : 0 < cfg.lineSizeBytes := by omega
  have hchk : checkLineLengthAndCount cfg file = .ok () := by
    have h1 := validateInput_ok_check cfg fs inFilename outFilename hval
    rw [hfile] at h1
    simpa using h1
  have hn0 : cfg.numberOfLinesPerSegment ≠ 0 :=
    (checkAux_spec cfg.lineSizeBytes cfg.numberOfLinesPerSegment hWpos (file.length + 1)
      file (List.replicate cfg.lineSizeBytes 0) 0 (Nat.lt_succ_self _) hdvd
      (List.length_replicate _ _)).2 hchk
  have hnpos : 0 < cfg.numberOfLinesPerSegment := Nat.pos_of_ne_zero hn0
  have hclean := recordsOf_clean cfg file hW hdvd hchk
  have hcontent := sortSegments_content cfg inFilename file hWpos hnpos hdvd hascii
  have hgood : ∀ ch ∈ (chunksExact cfg.numberOfLinesPerSegment
      (recordsOf cfg.lineSizeBytes file)).map sortRecords, goodRun cfg.lineSizeBytes ch := by
    intro ch hch
    rcases List.mem_map.mp hch with ⟨ch0, hch0, hcheq⟩
    have hch0ne : ch0 ≠ [] :=
      chunksExact_ne_nil cfg.numberOfLinesPerSegment hnpos _ ch0 hch0
    constructor
    · intro hnil
      have hlen := (sortRecords_perm ch0).length_eq
      rw [hcheq, hnil] at hlen
      exact hch0ne (List.eq_nil_of_length_eq_zero hlen.symm)
    · intro r hr
      have hrch0 : r ∈ ch0 := by
        rw [← hcheq] at hr
        exact (sortRecords_perm ch0).mem_iff.mp hr
      have hrrec : r ∈ recordsOf cfg.lineSizeBytes file := by
        rw [← chunksExact_flatten cfg.numberOfLinesPerSegment hnpos
          (recordsOf cfg.lineSizeBytes file)]
        exact List.mem_flatten.mpr ⟨ch0, hch0, hrch0⟩
      exact ⟨(hclean r hrrec).1, hbelow r hrrec⟩
  rcases performMerge_perm cfg.lineSizeBytes hW
    ((chunksExact cfg.numberOfLinesPerSegment
      (recordsOf cfg.lineSizeBytes file)).map sortRecords) hgood with ⟨ws, hws, hperm⟩
  have hmerged : mergedOutput cfg inFilename file = (ws, .ok ()) := by
    unfold mergedOutput
    rw [hcontent]
    exact hws
  have hperm2 : ws.Perm (recordsOf cfg.lineSizeBytes file) := by
    have h1 := flatten_map_sort_perm (chunksExact cfg.numberOfLinesPerSegment
      (recordsOf cfg.lineSizeBytes file))
    have h2 := chunksExact_flatten cfg.numberOfLinesPerSegment hnpos
      (recordsOf cfg.lineSizeBytes file)
    rw [h2] at h1
    exact hperm.trans h1
  have hsort : Sort' cfg inFilename outFilename fs =
      mergeSegments cfg ((sortSegments cfg inFilename file).map (fun s => s.1)) outFilename
        { files := (sortSegments cfg inFilename file).foldl
            (fun f seg => fun p => if p = seg.1 then some seg.2 else f p) fs.files,
          handles := fs.handles } := by
    unfold Sort'
    rw [hval, hfile]
    rfl
  have hrunsEq : ((sortSegments cfg inFilename file).map (fun s => s.1)).map
      (fun s => (((sortSegments cfg inFilename file).foldl
        (fun f seg => fun p => if p = seg.1 then some seg.2 else f p) fs.files) s).getD []) =
      ((chunksExact cfg.numberOfLinesPerSegment
        (recordsOf cfg.lineSizeBytes file)).map sortRecords).map encodeRun := by
    rw [List.map_map, ← hcontent]
    apply List.map_congr_left
    intro s hs
    show (((sortSegments cfg inFilename file).foldl
      (fun f seg => fun p => if p = seg.1 then some seg.2 else f p) fs.files) s.1).getD [] = s.2
    rw [foldl_write_lookup (sortSegments cfg inFilename file) fs.files
      (sortSegments_names_nodup cfg inFilename file) s hs]
    rfl
  refine ⟨by rw [hmerged], by rw [hmerged]; exact hperm2, ?_, ?_⟩
  · rw [hsort, mergeSegments_eval]
    show (performMerge cfg.lineSizeBytes _).2 = .ok ()
    rw [hrunsEq, hws]
  · intro houtn
    rw [hsort, mergeSegments_eval]
    show (if outFilename ∈ (sortSegments cfg inFilename file).map (fun s => s.1) then none
      else if outFilename = outFilename then some (encodeOut cfg.lineSizeBytes
        (performMerge cfg.lineSizeBytes _).1) else _) = _
    rw [if_neg houtn, if_pos rfl, hrunsEq, hws, hmerged]

/-- C2 counterexample: the single-record file with payload `"\x7f\x7f"`
(`recordWidth = 4`, one record per segment) passes validation, but during
the merge `findMinLine`'s reduce returns the sentinel itself, `indexOf`
returns `-1`, and the loop writes the padded sentinel and then crashes:
`Sort` fails and the written records are `["\x7f"]`, not a permutation of
the input records `["\x7f\x7f"]`. -/
theorem claim2_counterexample :
    validateInput ⟨800000, 1, 4⟩
      (FS.mk (fun p => if p = "in.txt" then some [127, 127, 13, 10]
        else if p = "out.txt" then some [] else none) (fun _ => 0))
      "in.txt" "out.txt" = .ok () ∧
    (mergedOutput ⟨800000, 1, 4⟩ "in.txt" [127, 127, 13, 10]).1 = [[127]] ∧
    (mergedOutput ⟨800000, 1, 4⟩ "in.txt" [127, 127, 13, 10]).2 =
      .error .invalidMergeIndex ∧
    recordsOf 4 [127, 127, 13, 10] = [[127, 127]] ∧
    ¬ List.Perm (mergedOutput ⟨800000, 1, 4⟩ "in.txt" [127, 127, 13, 10]).1
      (recordsOf 4 [127, 127, 13, 10]) := by
  refine ⟨rfl, rfl, rfl, rfl, ?_⟩
  intro hp
  have h1 : ([127] : Record) ∈ [([127, 127] : Record)] := by
    have h2 : ([127] : Record) ∈ (mergedOutput ⟨800000, 1, 4⟩ "in.txt"
        [127, 127, 13, 10]).1 := by
      rw [show (mergedOutput ⟨800000, 1, 4⟩ "in.txt" [127, 127, 13, 10]).1 =
        [[127]] from rfl]
      exact List.mem_singleton.mpr rfl
    have h3 := hp.mem_iff.mp h2
    rw [show recordsOf 4 [127, 127, 13, 10] = [[127, 127]] from rfl] at h3
    exact h3
  rcases List.mem_singleton.mp h1 with h4
  exact absurd h4 (by decide)

/-- Witness for the amended C2: the four-record file of the specification's
concrete scenario (`recordWidth = 7`, two records per segment) satisfies the
amended hypotheses, `Sort` succeeds and the written records are a
permutation of the input records. -/
theorem claim2_amended_permutation_witness :
    (Sort' ⟨800000, 2, 7⟩ "in.txt" "out.txt"
      (FS.mk (fun p => if p = "in.txt" then some
          [99, 104, 97, 114, 108, 13, 10, 97, 108, 105, 99, 101, 13, 10,
           98, 114, 105, 97, 110, 13, 10, 100, 97, 110, 105, 101, 13, 10]
        else if p = "out.txt" then some [] else none) (fun _ => 0))).2 = .ok () ∧
    List.Perm (mergedOutput ⟨800000, 2, 7⟩ "in.txt"
        [99, 104, 97, 114, 108, 13, 10, 97, 108, 105, 99, 101, 13, 10,
         98, 114, 105, 97, 110, 13, 10, 100, 97, 110, 105, 101, 13, 10]).1
      (recordsOf 7
        [99, 104, 97, 114, 108, 13, 10, 97, 108, 105, 99, 101, 13, 10,
         98, 114, 105, 97, 110, 13, 10, 100, 97, 110, 105, 101, 13, 10]) := by
  have h := claim2_amended_permutation ⟨800000, 2, 7⟩
    (FS.mk (fun p => if p = "in.txt" then some
        [99, 104, 97, 114, 108, 13, 10, 97, 108, 105, 99, 101, 13, 10,
         98, 114, 105, 97, 110, 13, 10, 100, 97, 110, 105, 101, 13, 10]
      else if p = "out.txt" then some [] else none) (fun _ => 0))
    "in.txt" "out.txt"
    [99, 104, 97, 114, 108, 13, 10, 97, 108, 105, 99, 101, 13, 10,
     98, 114, 105, 97, 110, 13, 10, 100, 97, 110, 105, 101, 13, 10]
    (by simp) rfl (by decide) (by decide) (by decide) (by decide)
  exact ⟨h.2.2.1, h.2.1⟩
